import Mathlib

/-!
# Verification of the cruddl query-tree pipeline and create-input generation

Shallow embedding of:
* `src/query-tree/objects.ts` — the query-tree node classes
  (`ObjectQueryNode`, `PropertySpecification`, `MergeObjectsQueryNode`)
  and the `OperationResolver` (`resolveOperation`, `queryFlexSearchTokens`,
  `expandQueryNode`);
* `src/schema-generation/create-input-type-generator.ts` — the create-input
  field classes (`BasicCreateInputField`, `BasicListCreateInputField`,
  `ObjectCreateInputField`, `ObjectListCreateInputField`,
  `CreateObjectInputType`) with `prepareValue`, `coerceValue` and
  `collectAffectedFields`.

Collaborators that are not part of the sampled sources
(`distillOperation`, `buildConditionalObjectQueryNode`,
`applyAuthorizationToQueryTree`, the database adapter, the static evaluator
`evaluateQueryStatically`, and `FlexSearchComplexOperatorQueryNode.expand`)
are either parameters of the model or are modelled from the spec, as
documented on each definition.
-/

set_option autoImplicit false

namespace Cruddl

/-! ## JSON-like values (TS `AnyValue` / `PlainObject`)

JavaScript distinguishes `undefined` from `null`; both appear in the source
(`value === undefined` vs `value === null` vs the loose `value == undefined`
which matches both).  Objects are modelled as ordered association lists, as
JS objects preserve key insertion order.  `vremove` models the explicit
removal sentinel of the merge operation described in the spec ("Set
properties to null to remove them" on `MergeObjectsQueryNode`; the spec
keeps it distinct from a JSON null value). -/

inductive Value where
  | vundef : Value
  | vnull : Value
  | vremove : Value
  | vbool : Bool → Value
  | vint : Int → Value
  | vstr : String → Value
  | vlist : List Value → Value
  | vobj : List (String × Value) → Value

namespace Value

/-- JS property assignment `obj[k] = v`: if the key exists, its value is
replaced in place (key order kept); otherwise the pair is appended. -/
def jsSet : List (String × Value) → String → Value → List (String × Value)
  | [], k, v => [(k, v)]
  | (k', v') :: rest, k, v =>
    if k' = k then (k', v) :: rest else (k', v') :: jsSet rest k v

/-- JS `delete obj[k]`. -/
def jsDelete : List (String × Value) → String → List (String × Value)
  | [], _ => []
  | (k', v') :: rest, k =>
    if k' = k then rest else (k', v') :: jsDelete rest k

/-- lodash `fromPairs`: builds an object by assigning the pairs in order
(later pairs overwrite earlier ones, JS assignment semantics). -/
def fromPairs (ps : List (String × Value)) : List (String × Value) :=
  ps.foldl (fun acc p => jsSet acc p.1 p.2) []

/-- JS `k in obj` (key present, even when its value is `undefined`). -/
def hasKey (props : List (String × Value)) (k : String) : Bool :=
  props.any (fun p => p.1 = k)

/-- JS `obj[k]`: yields `undefined` when the key is absent. -/
def getVal (props : List (String × Value)) (k : String) : Value :=
  match props.find? (fun p => p.1 = k) with
  | some p => p.2
  | none => vundef

/-- Lookup returning `none` for an absent key (used to state theorems). -/
def lookup (props : List (String × Value)) (k : String) : Option Value :=
  (props.find? (fun p => p.1 = k)).map Prod.snd

end Value

/-! ## Query-tree nodes (`src/query-tree/objects.ts` and companions)

The traversals in `OperationResolver` rely on two JavaScript facts that the
embedding makes explicit:

* `ObjectQueryNode.properties` and `MergeObjectsQueryNode.objectNodes` are
  *arrays*; an array is not `instanceof QueryNode`, so the generic
  `for (const field of Object.keys(queryNode))` loops in
  `queryFlexSearchTokens`/`expandQueryNode` do not descend into them;
* nodes whose children sit in plain `QueryNode`-typed fields (modelled here
  by `cond`, standing for the conditional node of the taxonomy) are
  descended into by those generic loops, field by field in declaration
  order.

`flex` models `FlexSearchComplexOperatorQueryNode` (declared in
`query-tree/flex-search.ts`, which is not among the sampled sources).
Modelled from the spec: "a placeholder node wrapping a raw search expression
plus a target language"; it has no `QueryNode`-typed fields of its own.
`obj` holds its `PropertySpecification`s as `(propertyName, valueNode)`
pairs. -/

inductive QueryNode where
  | literal : Value → QueryNode
  | varNode : String → QueryNode
  | obj : List (String × QueryNode) → QueryNode
  | merge : List QueryNode → QueryNode
  | cond : QueryNode → QueryNode → QueryNode → QueryNode
  | flex : String → String → QueryNode

/-- Result of `DatabaseAdapter.tokenizeExpressions` for one request
(`FlexSearchTokenization` in `query-tree/flex-search.ts`). -/
structure FlexSearchTokenization where
  expression : String
  language : String
  tokens : List String

/-! ### `OperationResolver.queryFlexSearchTokens` — the collect phase

`collectTokenizations` embeds the inner `collectTokenizations` function of
`queryFlexSearchTokens` (objects.ts lines 214–234): a flex node records its
`(expression, language)` pair; an `ObjectQueryNode` is special-cased to
recurse into `property.valueNode` for each property; afterwards the generic
loop recurses into every *directly* `QueryNode`-typed field.  Neither the
flex nor the object special case has such direct fields, so falling through
to the generic loop adds nothing for them.  A `MergeObjectsQueryNode` has no
special case and its only field `objectNodes` is an array, so nothing is
collected from it. -/

mutual

def collectTokenizations : QueryNode → List (String × String)
  | .flex e l => [(e, l)]
  | .obj props => collectTokenizationsProps props
  | .merge _ => []
  | .cond c t e =>
      collectTokenizations c ++ collectTokenizations t ++ collectTokenizations e
  | .literal _ => []
  | .varNode _ => []

def collectTokenizationsProps : List (String × QueryNode) → List (String × String)
  | [] => []
  | p :: rest => collectTokenizations p.2 ++ collectTokenizationsProps rest

end

/-! ### `OperationResolver.expandQueryNode` — the expand phase

Embeds objects.ts lines 240–271.  The second component of the result is
`true` iff the returned node is a freshly allocated object, i.e. *not* the
original node reference:

* a flex node returns `queryNode.expand(tokenizations)` — a fresh node
  (the expansion operation itself lives in `query-tree/flex-search.ts` and
  is passed here as the parameter `expandOp`; modelled from the spec: "the
  node's own expand operation consumes the full token list");
* an `ObjectQueryNode` is unconditionally rebuilt: fresh
  `PropertySpecification`s and a fresh `ObjectQueryNode`, whether or not
  any property value changed;
* every other node walks its directly `QueryNode`-typed fields, compares
  each expanded child by reference (`newValue != oldValue`), and only when
  some child is fresh does it allocate a copy via
  `Object.create`/`Object.assign` with the changed fields replaced.  A
  `MergeObjectsQueryNode` has no such direct fields (`objectNodes` is an
  array), so it is always returned unchanged — nothing inside it is
  expanded. -/

mutual

def expandQueryNode (expandOp : String → String → List FlexSearchTokenization → QueryNode)
    (toks : List FlexSearchTokenization) : QueryNode → QueryNode × Bool
  | .flex e l => (expandOp e l toks, true)
  | .obj props => (.obj (expandQueryNodeProps expandOp toks props), true)
  | .merge ns => (.merge ns, false)
  | .cond c t e =>
      let rc := expandQueryNode expandOp toks c
      let rt := expandQueryNode expandOp toks t
      let re := expandQueryNode expandOp toks e
      if rc.2 || rt.2 || re.2 then (.cond rc.1 rt.1 re.1, true) else (.cond c t e, false)
  | .literal v => (.literal v, false)
  | .varNode s => (.varNode s, false)

def expandQueryNodeProps (expandOp : String → String → List FlexSearchTokenization → QueryNode)
    (toks : List FlexSearchTokenization) :
    List (String × QueryNode) → List (String × QueryNode)
  | [] => []
  | p :: rest =>
      (p.1, (expandQueryNode expandOp toks p.2).1) :: expandQueryNodeProps expandOp toks rest

end

mutual

/-- Does the tree contain a `FlexSearchComplexOperatorQueryNode` anywhere? -/
def containsFlex : QueryNode → Bool
  | .flex _ _ => true
  | .obj props => containsFlexProps props
  | .merge ns => containsFlexList ns
  | .cond c t e => containsFlex c || containsFlex t || containsFlex e
  | .literal _ => false
  | .varNode _ => false

/-- `containsFlex` over a property list. -/
def containsFlexProps : List (String × QueryNode) → Bool
  | [] => false
  | p :: rest => containsFlex p.2 || containsFlexProps rest

/-- `containsFlex` over a node list. -/
def containsFlexList : List QueryNode → Bool
  | [] => false
  | n :: rest => containsFlex n || containsFlexList rest

end

/-! ## Merge semantics and evaluation

`spreadProps` is the value-level meaning of merging one more object into an
accumulated object, per the `MergeObjectsQueryNode` documentation ("If
multiple objects define the same property, the last one will win. Set
properties to null to remove them. This operation behaves like the
{...objectSpread} operator in JavaScript. The merge is NOT recursive.") and
the spec ("Setting a property's value to an explicit null sentinel in a
later input removes that property from the merged result, distinct from a
JSON null value" — the sentinel is `vremove` here). -/

def spreadProps (acc : List (String × Value)) : List (String × Value) → List (String × Value)
  | [] => acc
  | (k, v) :: rest =>
      match v with
      | .vremove => spreadProps (Value.jsDelete acc k) rest
      | _ => spreadProps (Value.jsSet acc k v) rest

/-- Merge a sequence of already-evaluated objects, first to last. -/
def mergeAll (objs : List (List (String × Value))) : List (String × Value) :=
  objs.foldl spreadProps []

/-- What a later merge input contributes to the lookup of one property:
its own binding wins (with the removal sentinel erasing the property), and
only in its absence does the older accumulated binding show through. -/
def spreadResult (later older : Option Value) : Option Value :=
  match later with
  | some .vremove => none
  | some v => some v
  | none => older

/-! ### Static evaluator

Modelled from the spec: `evaluateQueryStatically` lives in
`query-tree/utils.ts`, which is not among the sampled sources.  The spec
describes it as reducing "literals, pure operations over literals" with the
checked fragment being "object construction, merges, literal lists", and
declares any node depending on backend-resident data (unexpanded search
nodes in particular) not reducible.  The model therefore reduces exactly
literal nodes, object construction (last-defined-wins on duplicate property
names) and merges; every other node kind is reported non-reducible. -/

mutual

def staticEvalNode : QueryNode → Option Value
  | .literal v => some v
  | .obj props =>
      match staticEvalProps props with
      | some ps => some (.vobj (Value.fromPairs ps))
      | none => none
  | .merge ns =>
      match staticEvalObjs ns with
      | some objs => some (.vobj (mergeAll objs))
      | none => none
  | .cond _ _ _ => none
  | .flex _ _ => none
  | .varNode _ => none

def staticEvalProps : List (String × QueryNode) → Option (List (String × Value))
  | [] => some []
  | (k, n) :: rest =>
      match staticEvalNode n, staticEvalProps rest with
      | some v, some ps => some ((k, v) :: ps)
      | _, _ => none

def staticEvalObjs : List QueryNode → Option (List (List (String × Value)))
  | [] => some []
  | n :: rest =>
      match staticEvalNode n with
      | some (.vobj ps) =>
          match staticEvalObjs rest with
          | some os => some (ps :: os)
          | none => none
      | _ => none

end

/-- `evaluateQueryStatically` returns `{ canEvaluateStatically, result }`;
the result slot is `undefined` when the tree is not reducible. -/
def evaluateQueryStatically (t : QueryNode) : Bool × Value :=
  match staticEvalNode t with
  | some v => (true, v)
  | none => (false, .vundef)

/-! ### Backend contract semantics

Modelled from the spec, as the second definition of a refinement pair: the
spec's backend contract (`execute(tree) -> value`) requires a correct
backend to "independently produce the same result" the evaluator would.
`backendEval` gives the denotational meaning of the node kinds whose
semantics §3 of the spec pins down (literals; object construction with
last-defined-wins; non-recursive merge with later-wins and the removal
sentinel); node kinds whose meaning is backend-specific are mapped to
`none` (the contract does not constrain them).  It is written as a direct
accumulator-passing interpreter, deliberately not sharing the traversal
structure of `staticEvalNode`. -/

mutual

def backendEval : QueryNode → Option Value
  | .literal v => some v
  | .obj props => backendEvalObj props []
  | .merge ns => backendEvalMerge ns []
  | .cond _ _ _ => none
  | .flex _ _ => none
  | .varNode _ => none

def backendEvalObj : List (String × QueryNode) → List (String × Value) → Option Value
  | [], acc => some (.vobj acc)
  | (k, n) :: rest, acc =>
      match backendEval n with
      | some v => backendEvalObj rest (Value.jsSet acc k v)
      | none => none

def backendEvalMerge : List QueryNode → List (String × Value) → Option Value
  | [], acc => some (.vobj acc)
  | n :: rest, acc =>
      match backendEval n with
      | some (.vobj ps) => backendEvalMerge rest (spreadProps acc ps)
      | _ => none

end

/-- An adapter `satisfies the backend contract` when its `execute` agrees
with the contract semantics wherever the contract defines a result. -/
def SatisfiesBackendContract (execute : QueryNode → Value) : Prop :=
  ∀ t v, backendEval t = some v → execute t = v

/-! ## The resolution orchestrator (`OperationResolver.resolveOperation`)

The embedding makes the externally observable effects explicit as an event
trace: registration/unregistration of the global context and every call
that crosses the backend boundary.  Collaborators that are merely imported
by objects.ts (`distillOperation`, `buildConditionalObjectQueryNode`,
`applyAuthorizationToQueryTree`, the database adapter, the flex node's
`expand`) are parameters of the model, bundled in `ResolverEnv`.  Fallible
collaborators return `Except` (a JS `throw` is `Except.error`).  Wall-clock
instrumentation (`Watch`, `getPreciseTime`) is not representable; the model
keeps the *structure* of profiling — which pieces of backend-reported data
flow into the profile, and the condition under which a profile is built at
all — and replaces the elapsed-time numbers by the backend-reported timing
payload. -/

inductive MutationMode where
  | allowed
  | disallowed
deriving DecidableEq

structure ExecutionOptions where
  mutationMode : MutationMode := .allowed
  authRoles : List String := []
  recordPlan : Bool := false
  recordTimings : Bool := false

/-- Result of `DatabaseAdapter.executeExt`:
`{ data, error?, plan?, stats?, timings? }`. -/
structure ExtResult where
  data : Value
  error : Option String := none
  plan : Option String := none
  stats : Option String := none
  timings : Option Nat := none

/-- The backend adapter contract (§6 of the spec): `executeExt` is an
optional capability (`this.context.databaseAdapter.executeExt ? … : …`). -/
structure DatabaseAdapter where
  tokenizeExpressions : List (String × String) → List FlexSearchTokenization
  executeExt : Option (QueryNode → ExtResult)
  execute : QueryNode → Value

/-- The distilled operation produced by `distillOperation`; its internals
are irrelevant to the orchestrator, which only hands it to the builder. -/
structure DistilledOperation where
  opId : Nat

/-- The collaborators `resolveOperation` is wired to. -/
structure ResolverEnv where
  profileConsumer : Bool := false
  adapter : DatabaseAdapter
  distill : Except String DistilledOperation
  build : DistilledOperation → Except String QueryNode
  authorize : QueryNode → List String → Except String QueryNode
  expandOp : String → String → List FlexSearchTokenization → QueryNode

/-- Externally observable effects, in order of occurrence. -/
inductive ResolveEvent where
  | registerContext
  | unregisterContext
  | distilled
  | treeBuilt
  | tokenizeCall (requests : List (String × String))
  | executeExtCall (tree : QueryNode)
  | executeCall (tree : QueryNode)

/-- The `{ timings, plan, stats, … }` bundle of `RequestProfile` that the
orchestrator assembles (wall-clock totals elided, see above). -/
structure RequestProfile where
  plan : Option String
  stats : Option String
  dbTimings : Option Nat

/-- `ExecutionResult`: the `{ data, error, profile }` envelope. -/
structure ExecutionResult where
  data : Value
  error : Option String
  profile : Option RequestProfile

/-- objects.ts lines 213–238: collect all tokenization requests, then issue
a single `tokenizeExpressions` call with the full list. -/
def queryFlexSearchTokens (adapter : DatabaseAdapter) (queryTree : QueryNode) :
    List FlexSearchTokenization × List ResolveEvent :=
  let tokenizations := collectTokenizations queryTree
  (adapter.tokenizeExpressions tokenizations, [.tokenizeCall tokenizations])

/-- The body of the `try` block of `resolveOperation` (objects.ts lines
103–141): distillation, tree building, tokenization, expansion,
authorization.  Returns the authorized tree or the first error, plus the
events of the attempt. -/
def resolveTryBlock (env : ResolverEnv) (options : ExecutionOptions) :
    Except String QueryNode × List ResolveEvent :=
  match env.distill with
  | .error e => (.error e, [])
  | .ok operation =>
    match env.build operation with
    | .error e => (.error e, [.distilled])
    | .ok builtTree =>
      let (toks, tokEvents) := queryFlexSearchTokens env.adapter builtTree
      let expandedTree := (expandQueryNode env.expandOp toks builtTree).1
      match env.authorize expandedTree options.authRoles with
      | .error e => (.error e, [.distilled, .treeBuilt] ++ tokEvents)
      | .ok authorizedTree =>
          (.ok authorizedTree, [.distilled, .treeBuilt] ++ tokEvents)

/-- The profile is assembled exactly when
`watch && topLevelWatch && start != undefined`, which the source notes is
equivalent to `profileConsumer || options.recordPlan || options.recordTimings`. -/
def mkProfile (needsTimings : Bool) (plan stats : Option String) (tim : Option Nat) :
    Option RequestProfile :=
  if needsTimings then some { plan := plan, stats := stats, dbTimings := tim } else none

/-- `OperationResolver.resolveOperation` (objects.ts lines 83–211).

Faithful control flow: the context is registered first; the mutation guard
throws *before* the `try` block, so that path produces no
`unregisterContext`; every error raised inside the `try` passes through the
`finally` (one `unregisterContext` event) before propagating; static
evaluation and backend execution happen after the `finally`; a
backend-reported error is stored in the envelope, never thrown. -/
def resolveOperation (env : ResolverEnv) (operationIsMutation : Bool)
    (options : ExecutionOptions) : Except String ExecutionResult × List ResolveEvent :=
  let registerEvents : List ResolveEvent := [.registerContext]
  let needsTimings := env.profileConsumer || options.recordPlan || options.recordTimings
  if operationIsMutation && options.mutationMode = .disallowed then
    (.error "Mutations are not allowed", registerEvents)
  else
    let tryResult := resolveTryBlock env options
    let eventsAfterFinally := registerEvents ++ tryResult.2 ++ [.unregisterContext]
    match tryResult.1 with
    | .error e => (.error e, eventsAfterFinally)
    | .ok queryTree =>
      let staticResult := evaluateQueryStatically queryTree
      if staticResult.1 then
        (.ok { data := staticResult.2, error := none,
               profile := mkProfile needsTimings none none none },
         eventsAfterFinally)
      else
        match env.adapter.executeExt with
        | some exe =>
          let res := exe queryTree
          (.ok { data := res.data, error := res.error,
                 profile := mkProfile needsTimings res.plan res.stats res.timings },
           eventsAfterFinally ++ [.executeExtCall queryTree])
        | none =>
          (.ok { data := env.adapter.execute queryTree, error := none,
                 profile := mkProfile needsTimings none none none },
           eventsAfterFinally ++ [.executeCall queryTree])

/-! ## Create input types (`schema-generation/create-input-type-generator.ts`)

The model `Field` objects (from `../model`) are value-like records here; an
explicit numeric `fid` stands for JavaScript object identity, which is what
the TS `Set<Field>` used by `getAffectedFields` dedups by.

`CreateInputField` covers the four concrete field classes.
`BasicListCreateInputField` inherits `getProperties`,
`collectAffectedFields` and `appliesToMissingFields` from
`BasicCreateInputField` and overrides only `coerceValue`; the object
variants carry their nested `CreateObjectInputType` as its field list.
`CreateObjectInputType.getAdditionalProperties` returns `{}` in the base
class; the root/child-entity subclasses add system timestamp/id properties
built from wall-clock time and `uuid()`, which are not representable and
not needed by the claims about user-declared fields.

JS `throw`s are `Except.error`.  The `field.name in value` lookup of
`getApplicableInputFields` throws a `TypeError` when `value` is not an
object; values of non-object shape cannot reach `prepareValue` through the
GraphQL layer, and the model maps them to an error. -/

structure FieldModel where
  fid : Nat
  name : String
  hasDefaultValue : Bool
  defaultValue : Value

inductive CreateInputField where
  | basic : FieldModel → CreateInputField
  | basicList : FieldModel → CreateInputField
  | objectField : FieldModel → List CreateInputField → CreateInputField
  | objectList : FieldModel → List CreateInputField → CreateInputField

namespace CreateInputField

/-- The wrapped model field (`this.field`). -/
def fieldOf : CreateInputField → FieldModel
  | .basic f => f
  | .basicList f => f
  | .objectField f _ => f
  | .objectList f _ => f

/-- `get name() { return this.field.name; }` -/
def nameOf (f : CreateInputField) : String := f.fieldOf.name

/-- `appliesToMissingFields() { return this.field.hasDefaultValue; }`
(inherited unchanged by every subclass). -/
def appliesToMissingFields (f : CreateInputField) : Bool :=
  f.fieldOf.hasDefaultValue

/-- Is this a list-valued input field (scalar list or object list)? -/
def isListField : CreateInputField → Bool
  | .basicList _ => true
  | .objectList _ _ => true
  | _ => false

end CreateInputField

/-- The default-value substitution at the top of
`BasicCreateInputField.getProperties`: `if (value === undefined &&
this.field.hasDefaultValue) { value = this.field.defaultValue; }`. -/
def defaultSubst (f : CreateInputField) (v : Value) : Value :=
  match v with
  | .vundef =>
      if f.fieldOf.hasDefaultValue then f.fieldOf.defaultValue else .vundef
  | _ => v

/-- The filter of `getApplicableInputFields`:
`field.name in value || field.appliesToMissingFields()`. -/
def isApplicable (f : CreateInputField) (props : List (String × Value)) : Bool :=
  Value.hasKey props f.nameOf || f.appliesToMissingFields

open CreateInputField in
mutual

/-- `coerceValue` of the four field classes:
* `BasicCreateInputField`: identity;
* `BasicListCreateInputField`: `null` becomes `[]`;
* `ObjectCreateInputField`: `value == undefined` (loose: `undefined` or
  `null`) is returned unchanged, otherwise the nested
  `objectInputType.prepareValue(value)` runs;
* `ObjectListCreateInputField`: `null` becomes `[]`, `undefined` stays,
  a non-array throws, and each array element is prepared by the nested
  input type. -/
def coerceValue : CreateInputField → Value → Except String Value
  | .basic _, v => .ok v
  | .basicList _, v =>
      match v with
      | .vnull => .ok (.vlist [])
      | _ => .ok v
  | .objectField _ nested, v =>
      match v with
      | .vundef => .ok .vundef
      | .vnull => .ok .vnull
      | .vobj props => do
          let ps ← prepareFields nested props
          pure (.vobj (Value.fromPairs ps))
      | _ => .error "prepareValue: value is not an object"
  | .objectList fld nested, v =>
      match v with
      | .vnull => .ok (.vlist [])
      | .vundef => .ok .vundef
      | .vlist xs => do
          let ys ← prepareEach nested xs
          pure (.vlist ys)
      | _ => .error ("Expected value for " ++ fld.name ++ " to be an array")

/-- `BasicCreateInputField.getProperties`: substitute the default value for
an `undefined` input when the field has one, coerce, and emit the single
`{ [this.field.name]: value }` pair. -/
def getPropertyPairs (f : CreateInputField) (v : Value) :
    Except String (List (String × Value)) := do
  let v' ← coerceValue f (defaultSubst f v)
  pure [(f.fieldOf.name, v')]

/-- `CreateObjectInputType.prepareValue`, with
`getApplicableInputFields` (keep a field iff `field.name in value ||
field.appliesToMissingFields()`) fused into the recursion: the `flatMap`
of `toPairs(field.getProperties(value[field.name]))` over the applicable
fields, in declaration order. -/
def prepareFields : List CreateInputField → List (String × Value) →
    Except String (List (String × Value))
  | [], _ => .ok []
  | f :: rest, props =>
      if isApplicable f props then do
        let ps ← getPropertyPairs f (Value.getVal props (nameOf f))
        let rs ← prepareFields rest props
        pure (ps ++ rs)
      else
        prepareFields rest props

/-- `value.map(value => this.objectInputType.prepareValue(value))` of
`ObjectListCreateInputField.coerceValue`; `prepareValue` on a non-object
element throws. -/
def prepareEach : List CreateInputField → List Value → Except String (List Value)
  | _, [] => .ok []
  | nested, x :: xs =>
      match x with
      | .vobj props => do
          let ps ← prepareFields nested props
          let rest ← prepareEach nested xs
          pure (.vobj (Value.fromPairs ps) :: rest)
      | _ => .error "prepareValue: value is not an object"

end

/-- `CreateObjectInputType.prepareValue` proper: `fromPairs` of the pairs of
the applicable fields plus `getAdditionalProperties` (`{}` in the base
class). -/
def prepareValue (fields : List CreateInputField) (value : List (String × Value)) :
    Except String (List (String × Value)) := do
  let ps ← prepareFields fields value
  pure (Value.fromPairs ps)

open CreateInputField in
mutual

/-- `collectAffectedFields` of the field classes.  The TS code threads a
mutable `Set<Field>`; the model returns the list of `fields.add` calls in
order (dedup happens in `getAffectedFields`).

* `BasicCreateInputField` (and, by inheritance, `BasicListCreateInputField`):
  add nothing when `value === undefined` ("don't consider this field if it
  is just set to its default value"), else add `this.field`;
* `ObjectCreateInputField`: `super.collectAffectedFields` first, then
  return early when `value == undefined` (loose: also `null`), else recurse
  into the nested input type;
* `ObjectListCreateInputField`: `super` first, early return on
  `value == undefined`, throw on a non-array, else recurse per element. -/
def collectAffectedField : CreateInputField → Value → Except String (List FieldModel)
  | .basic fld, v =>
      match v with
      | .vundef => .ok []
      | _ => .ok [fld]
  | .basicList fld, v =>
      match v with
      | .vundef => .ok []
      | _ => .ok [fld]
  | .objectField fld nested, v =>
      match v with
      | .vundef => .ok []
      | .vnull => .ok [fld]
      | .vobj props => do
          let inner ← collectAffectedObj nested props
          pure ([fld] ++ inner)
      | _ => .error "collectAffectedFields: value is not an object"
  | .objectList fld nested, v =>
      match v with
      | .vundef => .ok []
      | .vnull => .ok [fld]
      | .vlist xs => do
          let inner ← collectAffectedEach nested xs
          pure ([fld] ++ inner)
      | _ => .error ("Expected value for " ++ fld.name ++ " to be an array")

/-- `CreateObjectInputType.collectAffectedFields`: for each applicable field
(same filter as `prepareValue`), collect from `value[field.name]`. -/
def collectAffectedObj : List CreateInputField → List (String × Value) →
    Except String (List FieldModel)
  | [], _ => .ok []
  | f :: rest, props =>
      if isApplicable f props then do
        let a ← collectAffectedField f (Value.getVal props (nameOf f))
        let b ← collectAffectedObj rest props
        pure (a ++ b)
      else
        collectAffectedObj rest props

/-- The per-element recursion of `ObjectListCreateInputField`; a non-object
element makes the nested `getApplicableInputFields` throw. -/
def collectAffectedEach : List CreateInputField → List Value →
    Except String (List FieldModel)
  | _, [] => .ok []
  | nested, x :: xs =>
      match x with
      | .vobj props => do
          let a ← collectAffectedObj nested props
          let b ← collectAffectedEach nested xs
          pure (a ++ b)
      | _ => .error "collectAffectedFields: value is not an object"

end

/-- TS `Set` insertion discipline: keep the first occurrence of each object
identity (`fid`). -/
def dedupFields (seen : List Nat) : List FieldModel → List FieldModel
  | [] => []
  | f :: rest =>
      if f.fid ∈ seen then dedupFields seen rest
      else f :: dedupFields (f.fid :: seen) rest

/-- `CreateObjectInputType.getAffectedFields`: run `collectAffectedFields`
into a fresh `Set<Field>` and return `Array.from` of it. -/
def getAffectedFields (fields : List CreateInputField) (value : List (String × Value)) :
    Except String (List FieldModel) :=
  (collectAffectedObj fields value).map (dedupFields [])

/-! ## Auxiliary predicates and trace observations used by the theorems -/

mutual

/-- Does the tree contain an `ObjectQueryNode` anywhere? -/
def containsObj : QueryNode → Bool
  | .obj _ => true
  | .merge ns => containsObjList ns
  | .cond c t e => containsObj c || containsObj t || containsObj e
  | .literal _ => false
  | .varNode _ => false
  | .flex _ _ => false

/-- `containsObj` over a node list. -/
def containsObjList : List QueryNode → Bool
  | [] => false
  | n :: rest => containsObj n || containsObjList rest

end

mutual

/-- Every `MergeObjectsQueryNode` in the tree has flex-free inputs, i.e. no
flex node is hidden inside a merge node's `objectNodes` array. -/
def mergesFlexFree : QueryNode → Bool
  | .merge ns => !containsFlexList ns
  | .obj props => mergesFlexFreeProps props
  | .cond c t e => mergesFlexFree c && mergesFlexFree t && mergesFlexFree e
  | .literal _ => true
  | .varNode _ => true
  | .flex _ _ => true

/-- `mergesFlexFree` over a property list. -/
def mergesFlexFreeProps : List (String × QueryNode) → Bool
  | [] => true
  | p :: rest => mergesFlexFree p.2 && mergesFlexFreeProps rest

end

/-- `n` occurs in the tree at a position reachable without passing through a
`MergeObjectsQueryNode`'s `objectNodes` array. -/
inductive OccursOutsideMerge (n : QueryNode) : QueryNode → Prop where
  | here : OccursOutsideMerge n n
  | inObj {props : List (String × QueryNode)} (p : String × QueryNode) :
      p ∈ props → OccursOutsideMerge n p.2 → OccursOutsideMerge n (.obj props)
  | inCondC {c t e : QueryNode} :
      OccursOutsideMerge n c → OccursOutsideMerge n (.cond c t e)
  | inCondT {c t e : QueryNode} :
      OccursOutsideMerge n t → OccursOutsideMerge n (.cond c t e)
  | inCondE {c t e : QueryNode} :
      OccursOutsideMerge n e → OccursOutsideMerge n (.cond c t e)

/-- Number of `tokenizeExpressions` calls in a trace. -/
def countTokenizeCalls : List ResolveEvent → Nat
  | [] => 0
  | .tokenizeCall _ :: rest => 1 + countTokenizeCalls rest
  | _ :: rest => countTokenizeCalls rest

/-- Number of `registerContext` calls in a trace. -/
def countRegisterCalls : List ResolveEvent → Nat
  | [] => 0
  | .registerContext :: rest => 1 + countRegisterCalls rest
  | _ :: rest => countRegisterCalls rest

/-- Number of `unregisterContext` calls in a trace. -/
def countUnregisterCalls : List ResolveEvent → Nat
  | [] => 0
  | .unregisterContext :: rest => 1 + countUnregisterCalls rest
  | _ :: rest => countUnregisterCalls rest

/-- The trees handed to the backend (`execute`/`executeExt`) in a trace. -/
def executedTrees : List ResolveEvent → List QueryNode
  | [] => []
  | .executeExtCall t :: rest => t :: executedTrees rest
  | .executeCall t :: rest => t :: executedTrees rest
  | _ :: rest => executedTrees rest

/-! ## Concrete fixtures for counterexamples and witnesses -/

/-- A concrete flex expansion: replaces the search operator by a literal. -/
def expandOp0 : String → String → List FlexSearchTokenization → QueryNode :=
  fun e _ _ => .literal (.vstr e)

/-- A concrete adapter whose `executeExt` succeeds with `null` data. -/
def adapter0 : DatabaseAdapter where
  tokenizeExpressions := fun reqs => reqs.map (fun r => ⟨r.1, r.2, [r.1]⟩)
  executeExt := some (fun _ => { data := .vnull })
  execute := fun _ => .vnull

/-- A query tree with a flex node hidden inside a merge node, nested inside
the root object node. -/
def treeMergeFlex : QueryNode := .obj [("f", .merge [.flex "x" "en"])]

/-- A query tree with a flex node as a plain object property. -/
def treeObjFlex : QueryNode := .obj [("f", .flex "x" "en")]

/-- An environment that builds `treeMergeFlex` and authorizes unchanged. -/
def env0 : ResolverEnv where
  adapter := adapter0
  distill := .ok ⟨0⟩
  build := fun _ => .ok treeMergeFlex
  authorize := fun t _ => .ok t
  expandOp := expandOp0

/-- Like `env0` but building `treeObjFlex` (flex node outside any merge). -/
def env1 : ResolverEnv where
  adapter := adapter0
  distill := .ok ⟨0⟩
  build := fun _ => .ok treeObjFlex
  authorize := fun t _ => .ok t
  expandOp := expandOp0

/-- An adapter whose `executeExt` reports an error together with plan,
stats and timing data. -/
def adapterErr : DatabaseAdapter where
  tokenizeExpressions := fun reqs => reqs.map (fun r => ⟨r.1, r.2, [r.1]⟩)
  executeExt := some (fun _ =>
    { data := .vundef, error := some "boom", plan := some "plan",
      stats := some "stats", timings := some 5 })
  execute := fun _ => .vnull

/-- Environment building a tree that is not statically evaluable, wired to
the failing adapter. -/
def envErr : ResolverEnv where
  adapter := adapterErr
  distill := .ok ⟨0⟩
  build := fun _ => .ok (.varNode "v")
  authorize := fun t _ => .ok t
  expandOp := expandOp0

/-- Like `env1`, but authorization wraps the tree in a conditional node, so
the result is not statically evaluable and execution reaches the backend. -/
def env2 : ResolverEnv where
  adapter := adapter0
  distill := .ok ⟨0⟩
  build := fun _ => .ok treeObjFlex
  authorize := fun t _ => .ok (.cond t t t)
  expandOp := expandOp0

/-- The reference backend execution: the contract semantics where defined,
`null` elsewhere. -/
def backendExecute0 : QueryNode → Value :=
  fun t => (backendEval t).getD .vnull

/-! ## Theorems -/

/-- Structural induction over `QueryNode` with pointwise hypotheses for the
list-carrying constructors. -/
theorem QueryNode.strongInduction
    (P : QueryNode → Prop)
    (hlit : ∀ v, P (.literal v))
    (hvar : ∀ s, P (.varNode s))
    (hobj : ∀ props : List (String × QueryNode), (∀ k n, (k, n) ∈ props → P n) → P (.obj props))
    (hmerge : ∀ ns : List QueryNode, (∀ n ∈ ns, P n) → P (.merge ns))
    (hcond : ∀ c t e, P c → P t → P e → P (.cond c t e))
    (hflex : ∀ e l, P (.flex e l)) :
    ∀ t, P t
  | .literal v => hlit v
  | .varNode s => hvar s
  | .obj props => hobj props (fun k n hkn =>
      QueryNode.strongInduction P hlit hvar hobj hmerge hcond hflex n)
  | .merge ns => hmerge ns (fun n hn =>
      QueryNode.strongInduction P hlit hvar hobj hmerge hcond hflex n)
  | .cond c t e =>
      hcond c t e
        (QueryNode.strongInduction P hlit hvar hobj hmerge hcond hflex c)
        (QueryNode.strongInduction P hlit hvar hobj hmerge hcond hflex t)
        (QueryNode.strongInduction P hlit hvar hobj hmerge hcond hflex e)
  | .flex e l => hflex e l
termination_by t => sizeOf t
decreasing_by
· have h1 : sizeOf (k, n) < sizeOf props := List.sizeOf_lt_of_mem hkn
  simp only [Prod.mk.sizeOf_spec] at h1
  simp only [QueryNode.obj.sizeOf_spec]
  omega
· have h1 : sizeOf n < sizeOf ns := List.sizeOf_lt_of_mem hn
  simp only [QueryNode.merge.sizeOf_spec]
  omega
· simp only [QueryNode.cond.sizeOf_spec]; omega
· simp only [QueryNode.cond.sizeOf_spec]; omega
· simp only [QueryNode.cond.sizeOf_spec]; omega

/-- When the expansion pass reports no fresh allocation, it returned the
original node. -/
theorem expand_not_fresh (expandOp : String → String → List FlexSearchTokenization → QueryNode)
    (toks : List FlexSearchTokenization) :
    ∀ t, (expandQueryNode expandOp toks t).2 = false → (expandQueryNode expandOp toks t).1 = t := by
  intro t h
  cases t with
  | literal v => rfl
  | varNode s => rfl
  | obj props => simp [expandQueryNode] at h
  | merge ns => rfl
  | flex e l => simp [expandQueryNode] at h
  | cond c t e =>
    simp only [expandQueryNode] at h ⊢
    split at h
    · simp at h
    · rename_i hcond2
      rw [if_neg hcond2]

/-- Pointwise version of `containsFlex_expand` for property lists. -/
theorem containsFlex_expandProps (expandOp : String → String → List FlexSearchTokenization → QueryNode)
    (toks : List FlexSearchTokenization) :
    ∀ props : List (String × QueryNode),
      (∀ k n, (k, n) ∈ props → mergesFlexFree n = true →
        containsFlex (expandQueryNode expandOp toks n).1 = false) →
      mergesFlexFreeProps props = true →
      containsFlexProps (expandQueryNodeProps expandOp toks props) = false := by
  intro props
  induction props with
  | nil => intro _ _; rfl
  | cons p rest ih =>
    intro hIH hmf
    obtain ⟨k, n⟩ := p
    simp only [mergesFlexFreeProps, Bool.and_eq_true] at hmf
    simp only [expandQueryNodeProps, containsFlexProps, Bool.or_eq_false_iff]
    constructor
    · exact hIH k n (by simp) hmf.1
    · exact ih (fun k' n' h' hm => hIH k' n' (List.mem_cons_of_mem _ h') hm) hmf.2

/-- Expansion produces a flex-free tree, provided the flex expansions are
flex-free and no flex node is hidden inside a merge node's array (hidden
ones are unreachable for the pass). -/
theorem containsFlex_expand (expandOp : String → String → List FlexSearchTokenization → QueryNode)
    (toks : List FlexSearchTokenization)
    (hexp : ∀ e l, containsFlex (expandOp e l toks) = false) :
    ∀ t, mergesFlexFree t = true → containsFlex (expandQueryNode expandOp toks t).1 = false := by
  intro t
  induction t using QueryNode.strongInduction with
  | hlit v => intro _; rfl
  | hvar s => intro _; rfl
  | hflex e l => intro _; exact hexp e l
  | hobj props ih =>
    intro hmf
    simp only [mergesFlexFree] at hmf
    simp only [expandQueryNode, containsFlex]
    exact containsFlex_expandProps expandOp toks props ih hmf
  | hmerge ns ih =>
    intro hmf
    simp only [mergesFlexFree, Bool.not_eq_true'] at hmf
    simpa [expandQueryNode, containsFlex] using hmf
  | hcond c t e ihc iht ihe =>
    intro hmf
    simp only [mergesFlexFree, Bool.and_eq_true] at hmf
    simp only [expandQueryNode]
    split
    · simp only [containsFlex, Bool.or_eq_false_iff]
      exact ⟨⟨ihc hmf.1.1, iht hmf.1.2⟩, ihe hmf.2⟩
    · rename_i hsplit
      simp only [Bool.or_eq_true, not_or, Bool.not_eq_true] at hsplit
      have hc := expand_not_fresh expandOp toks c hsplit.1.1
      have ht := expand_not_fresh expandOp toks t hsplit.1.2
      have he := expand_not_fresh expandOp toks e hsplit.2
      simp only [containsFlex, Bool.or_eq_false_iff]
      refine ⟨⟨?_, ?_⟩, ?_⟩
      · rw [← hc]; exact ihc hmf.1.1
      · rw [← ht]; exact iht hmf.1.2
      · rw [← he]; exact ihe hmf.2

theorem executedTrees_append :
    ∀ a b : List ResolveEvent, executedTrees (a ++ b) = executedTrees a ++ executedTrees b := by
  intro a b
  induction a with
  | nil => rfl
  | cons ev rest ih => cases ev <;> simp [executedTrees, ih]

/-- The `try` block never talks to `execute`/`executeExt`. -/
theorem executedTrees_tryBlock :
    ∀ (env : ResolverEnv) (options : ExecutionOptions),
      executedTrees (resolveTryBlock env options).2 = [] := by
  intro env options
  simp only [resolveTryBlock, queryFlexSearchTokens]
  split
  · rfl
  · split
    · rfl
    · split <;> rfl

/-- A successful `try` block means: distillation succeeded, the tree was
built, and the authorized tree is the expansion of the built tree under the
tokens of the single batched tokenization call. -/
theorem resolveTryBlock_ok (env : ResolverEnv) (options : ExecutionOptions)
    (qt : QueryNode) (evs : List ResolveEvent)
    (h : resolveTryBlock env options = (.ok qt, evs)) :
    ∃ op t0, env.distill = .ok op ∧ env.build op = .ok t0 ∧
      env.authorize
        (expandQueryNode env.expandOp
          (env.adapter.tokenizeExpressions (collectTokenizations t0)) t0).1
        options.authRoles = .ok qt := by
  simp only [resolveTryBlock, queryFlexSearchTokens] at h
  split at h
  · simp at h
  · rename_i op hop
    split at h
    · simp at h
    · rename_i t0 ht0
      split at h
      · simp at h
      · rename_i t2 ht2
        simp only [Prod.mk.injEq, Except.ok.injEq] at h
        exact ⟨op, t0, hop, ht0, h.1 ▸ ht2⟩

/-- C1 (amended): in `resolveOperation`, every tree handed to
`execute`/`executeExt` is free of `FlexSearchComplexOperatorQueryNode`s,
provided the built tree hides no flex node inside a
`MergeObjectsQueryNode`'s `objectNodes` array (such nodes are unreachable
for the expansion pass, which only special-cases `ObjectQueryNode`s and
otherwise follows directly `QueryNode`-typed fields), the flex expansions
are themselves flex-free, and the authorization pass preserves
flex-freedom. -/
theorem C1_flex_free_execution
    (env : ResolverEnv) (operationIsMutation : Bool) (options : ExecutionOptions)
    (hbuild : ∀ op t, env.build op = .ok t → mergesFlexFree t = true)
    (hexp : ∀ e l toks, containsFlex (env.expandOp e l toks) = false)
    (hauth : ∀ t roles t', env.authorize t roles = .ok t' →
      containsFlex t = false → containsFlex t' = false) :
    ∀ t ∈ executedTrees (resolveOperation env operationIsMutation options).2,
      containsFlex t = false := by
  intro t ht
  simp only [resolveOperation] at ht
  split at ht
  · simp [executedTrees] at ht
  · split at ht
    · simp [executedTrees_append, executedTrees_tryBlock, executedTrees] at ht
    · rename_i qt hqt
      split at ht
      · simp [executedTrees_append, executedTrees_tryBlock, executedTrees] at ht
      · have hflexfree : containsFlex qt = false := by
          obtain ⟨op, t0, hop, ht0, hauth0⟩ :=
            resolveTryBlock_ok env options qt (resolveTryBlock env options).2
              (by rw [← hqt])
          exact hauth _ _ _ hauth0
            (containsFlex_expand env.expandOp _ (fun e l => hexp e l _) t0
              (hbuild op t0 ht0))
        split at ht <;>
          simp_all [executedTrees_append, executedTrees_tryBlock, executedTrees]

/-- C1 (counterexample): a `FlexSearchComplexOperatorQueryNode` inside a
`MergeObjectsQueryNode` survives the expansion phase and is handed to the
backend unexpanded: running the full pipeline on a tree whose root object
holds a merge node wrapping a flex node executes exactly that tree, still
containing the flex node, and static evaluation already reported it
non-reducible. -/
theorem C1_counterexample :
    executedTrees (resolveOperation env0 false {}).2 = [treeMergeFlex] ∧
    containsFlex treeMergeFlex = true ∧
    evaluateQueryStatically treeMergeFlex = (false, .vundef) :=
  ⟨rfl, rfl, rfl⟩

/-- C1 (witness): the amended theorem applied to a pipeline whose built
tree keeps its flex node outside any merge node; the tree handed to the
backend is flex-free. -/
theorem C1_witness :
    containsFlex
      (.cond (.obj [("f", .literal (.vstr "x"))]) (.obj [("f", .literal (.vstr "x"))])
        (.obj [("f", .literal (.vstr "x"))])) = false := by
  refine C1_flex_free_execution env2 false {} ?_ ?_ ?_
    (.cond (.obj [("f", .literal (.vstr "x"))]) (.obj [("f", .literal (.vstr "x"))])
      (.obj [("f", .literal (.vstr "x"))])) ?_
  · intro op t h
    simp only [env2] at h
    injection h with h'
    subst h'
    rfl
  · intro e l toks
    rfl
  · intro t roles t' h hf
    simp only [env2] at h
    injection h with h'
    subst h'
    simp [containsFlex, hf]
  · rw [show executedTrees (resolveOperation env2 false {}).2 =
          [QueryNode.cond (.obj [("f", .literal (.vstr "x"))])
            (.obj [("f", .literal (.vstr "x"))]) (.obj [("f", .literal (.vstr "x"))])] from rfl]
    exact List.Mem.head _

theorem countTokenizeCalls_append :
    ∀ a b : List ResolveEvent,
      countTokenizeCalls (a ++ b) = countTokenizeCalls a + countTokenizeCalls b := by
  intro a b
  induction a with
  | nil => simp [countTokenizeCalls]
  | cons ev rest ih => cases ev <;> simp [countTokenizeCalls, ih] <;> omega

theorem countRegisterCalls_append :
    ∀ a b : List ResolveEvent,
      countRegisterCalls (a ++ b) = countRegisterCalls a + countRegisterCalls b := by
  intro a b
  induction a with
  | nil => simp [countRegisterCalls]
  | cons ev rest ih => cases ev <;> simp [countRegisterCalls, ih] <;> omega

theorem countUnregisterCalls_append :
    ∀ a b : List ResolveEvent,
      countUnregisterCalls (a ++ b) = countUnregisterCalls a + countUnregisterCalls b := by
  intro a b
  induction a with
  | nil => simp [countUnregisterCalls]
  | cons ev rest ih => cases ev <;> simp [countUnregisterCalls, ih] <;> omega

/-- The `try` block performs at most one tokenization call and touches the
context registration not at all. -/
theorem resolveTryBlock_trace_counts :
    ∀ (env : ResolverEnv) (options : ExecutionOptions),
      countTokenizeCalls (resolveTryBlock env options).2 ≤ 1 ∧
      countRegisterCalls (resolveTryBlock env options).2 = 0 ∧
      countUnregisterCalls (resolveTryBlock env options).2 = 0 := by
  intro env options
  simp only [resolveTryBlock, queryFlexSearchTokens]
  split
  · exact ⟨by simp [countTokenizeCalls], rfl, rfl⟩
  · split
    · exact ⟨by simp [countTokenizeCalls, countRegisterCalls], rfl, rfl⟩
    · split <;>
        exact ⟨by simp [countTokenizeCalls, countRegisterCalls], rfl, rfl⟩

/-- Membership transfers from one property's collected tokens to the whole
property list's. -/
theorem mem_collectTokenizationsProps :
    ∀ (props : List (String × QueryNode)) (p : String × QueryNode), p ∈ props →
      ∀ x, x ∈ collectTokenizations p.2 → x ∈ collectTokenizationsProps props := by
  intro props
  induction props with
  | nil => intro p hp; simp at hp
  | cons q rest ih =>
    intro p hp x hx
    simp only [collectTokenizationsProps, List.mem_append]
    rcases List.mem_cons.mp hp with h | h
    · subst h; exact Or.inl hx
    · exact Or.inr (ih p h x hx)

/-- Every flex node reachable without crossing a merge node's array has its
`(expression, language)` pair in the collected tokenization requests. -/
theorem mem_collect_of_occursOutsideMerge :
    ∀ (t : QueryNode) (e l : String),
      OccursOutsideMerge (.flex e l) t → (e, l) ∈ collectTokenizations t := by
  intro t e l h
  induction h with
  | here => simp [collectTokenizations]
  | inObj p hp _ ih =>
    exact mem_collectTokenizationsProps _ p hp (e, l) ih
  | inCondC _ ih => simp only [collectTokenizations, List.mem_append]; exact Or.inl (Or.inl ih)
  | inCondT _ ih => simp only [collectTokenizations, List.mem_append]; exact Or.inl (Or.inr ih)
  | inCondE _ ih => simp only [collectTokenizations, List.mem_append]; exact Or.inr ih

/-- C2 (amended): the tokenization enrichment pass issues exactly one
`tokenizeExpressions` call per request — `queryFlexSearchTokens` always
produces a single call carrying the full collected list (in collection
order), and a whole `resolveOperation` run never makes more than one — and
the collected list contains the `(expression, language)` pair of every flex
node reachable through object properties and directly `QueryNode`-typed
fields (children held inside a merge node's array are not visited). -/
theorem C2_single_batched_tokenization :
    (∀ (adapter : DatabaseAdapter) (t : QueryNode),
      (queryFlexSearchTokens adapter t).2 = [.tokenizeCall (collectTokenizations t)]) ∧
    (∀ (env : ResolverEnv) (isMut : Bool) (options : ExecutionOptions),
      countTokenizeCalls (resolveOperation env isMut options).2 ≤ 1) ∧
    (∀ (t : QueryNode) (e l : String),
      OccursOutsideMerge (.flex e l) t → (e, l) ∈ collectTokenizations t) := by
  refine ⟨fun _ _ => rfl, ?_, mem_collect_of_occursOutsideMerge⟩
  intro env isMut options
  have htry := resolveTryBlock_trace_counts env options
  simp only [resolveOperation]
  split
  · simp [countTokenizeCalls]
  · split
    · simp [countTokenizeCalls_append, countTokenizeCalls]
      omega
    · split
      · simp [countTokenizeCalls_append, countTokenizeCalls]
        omega
      · split <;>
          (simp [countTokenizeCalls_append, countTokenizeCalls]; omega)

/-- C2 (counterexample): the `(expression, language)` pair of a flex node
held inside a `MergeObjectsQueryNode` is *not* collected: the single
tokenization call for such a tree carries the empty request list. -/
theorem C2_counterexample :
    collectTokenizations (.merge [.flex "hello" "en"]) = [] ∧
    (queryFlexSearchTokens adapter0 (.merge [.flex "hello" "en"])).2 =
      [.tokenizeCall []] :=
  ⟨rfl, rfl⟩

/-- C2 (witness): the amended theorem at concrete inputs — a flex node in
an object property is collected, and a concrete run makes at most one
call. -/
theorem C2_witness :
    ("a", "b") ∈ collectTokenizations (.obj [("p", .flex "a" "b")]) :=
  C2_single_batched_tokenization.2.2 (.obj [("p", .flex "a" "b")]) "a" "b"
    (.inObj ("p", .flex "a" "b") (List.Mem.head _) .here)

/-- C3 (counterexample): the write-guard rejection path raises its error
*between* `registerContext` and the `try`/`finally`, so the registered
context is never unregistered: the trace of a disallowed mutation contains
the registration but no `unregisterContext`. -/
theorem C3_counterexample :
    resolveOperation env0 true { mutationMode := .disallowed } =
      (.error "Mutations are not allowed", [.registerContext]) ∧
    countRegisterCalls (resolveOperation env0 true { mutationMode := .disallowed }).2 = 1 ∧
    countUnregisterCalls (resolveOperation env0 true { mutationMode := .disallowed }).2 = 0 :=
  ⟨rfl, rfl, rfl⟩

/-- C3 (amended): on every run in which the write guard does not fire, the
context registration is balanced by exactly one unregistration — every
error raised inside the `try` block (distillation, tree building,
tokenization, authorization) passes through the `finally` first, so such a
failing request's trace ends with `unregisterContext`.  The write-guard
rejection itself, however, throws before the `try` block and leaves the
context registered. -/
theorem C3_context_unregistered
    (env : ResolverEnv) (isMut : Bool) (options : ExecutionOptions)
    (hguard : isMut = false ∨ options.mutationMode = .allowed) :
    countRegisterCalls (resolveOperation env isMut options).2 = 1 ∧
    countUnregisterCalls (resolveOperation env isMut options).2 = 1 ∧
    (∀ e, (resolveOperation env isMut options).1 = .error e →
      (resolveOperation env isMut options).2.getLast? = some .unregisterContext) := by
  have hcounts := resolveTryBlock_trace_counts env options
  have hg : (isMut && decide (options.mutationMode = MutationMode.disallowed)) = false := by
    rcases hguard with h | h <;> simp [h]
  simp only [resolveOperation, hg, Bool.false_eq_true, if_false]
  split
  · refine ⟨?_, ?_, ?_⟩
    · simp [countRegisterCalls_append, countRegisterCalls, hcounts.2.1]
    · simp [countUnregisterCalls_append, countUnregisterCalls, hcounts.2.2]
    · intro e _
      exact List.getLast?_concat _
  · split
    · refine ⟨?_, ?_, ?_⟩
      · simp [countRegisterCalls_append, countRegisterCalls, hcounts.2.1]
      · simp [countUnregisterCalls_append, countUnregisterCalls, hcounts.2.2]
      · intro e he
        simp at he
    · split
      · refine ⟨?_, ?_, ?_⟩
        · simp [countRegisterCalls_append, countRegisterCalls, hcounts.2.1]
        · simp [countUnregisterCalls_append, countUnregisterCalls, hcounts.2.2]
        · intro e he
          simp at he
      · refine ⟨?_, ?_, ?_⟩
        · simp [countRegisterCalls_append, countRegisterCalls, hcounts.2.1]
        · simp [countUnregisterCalls_append, countUnregisterCalls, hcounts.2.2]
        · intro e he
          simp at he

/-- C3 (witness): a concrete non-mutation run registers and unregisters
exactly once. -/
theorem C3_witness :
    countRegisterCalls (resolveOperation env0 false {}).2 = 1 ∧
    countUnregisterCalls (resolveOperation env0 false {}).2 = 1 :=
  ⟨(C3_context_unregistered env0 false {} (Or.inl rfl)).1,
   (C3_context_unregistered env0 false {} (Or.inl rfl)).2.1⟩

/-- C4: a mutation under `mutationMode = 'disallowed'` fails immediately:
the result is the `Mutations are not allowed` error, the trace shows that
distillation never ran and no tree was built, and neither a tokenization
call nor any backend call was made. -/
theorem C4_mutation_guard (env : ResolverEnv) (options : ExecutionOptions)
    (h : options.mutationMode = .disallowed) :
    resolveOperation env true options =
      (.error "Mutations are not allowed", [.registerContext]) ∧
    countTokenizeCalls (resolveOperation env true options).2 = 0 ∧
    executedTrees (resolveOperation env true options).2 = [] ∧
    ResolveEvent.distilled ∉ (resolveOperation env true options).2 ∧
    ResolveEvent.treeBuilt ∉ (resolveOperation env true options).2 := by
  have heq : resolveOperation env true options =
      (.error "Mutations are not allowed", [.registerContext]) := by
    simp [resolveOperation, h]
  refine ⟨heq, ?_, ?_, ?_, ?_⟩
  · rw [heq]; rfl
  · rw [heq]; rfl
  · rw [heq]
    intro hmem
    exact ResolveEvent.noConfusion (List.mem_singleton.mp hmem)
  · rw [heq]
    intro hmem
    exact ResolveEvent.noConfusion (List.mem_singleton.mp hmem)

/-- C4 (witness): the guard theorem at a concrete environment. -/
theorem C4_witness :
    countTokenizeCalls (resolveOperation env0 true { mutationMode := .disallowed }).2 = 0 ∧
    executedTrees (resolveOperation env0 true { mutationMode := .disallowed }).2 = [] :=
  ⟨(C4_mutation_guard env0 { mutationMode := .disallowed } rfl).2.1,
   (C4_mutation_guard env0 { mutationMode := .disallowed } rfl).2.2.1⟩

/-- C5 (counterexample): an `ObjectQueryNode` is reconstructed by
`expandQueryNode` even when the tree contains no flex node and no
descendant changed: the result is structurally identical to the input, yet
it is a fresh allocation (second component `true`), not the original
reference — the special case at the top of `expandQueryNode` always builds
new `PropertySpecification`s and a new `ObjectQueryNode`. -/
theorem C5_counterexample :
    containsFlex (.obj [("a", .literal (.vint 1))]) = false ∧
    (expandQueryNode expandOp0 [] (.obj [("a", .literal (.vint 1))])).1 =
      .obj [("a", .literal (.vint 1))] ∧
    (expandQueryNode expandOp0 [] (.obj [("a", .literal (.vint 1))])).2 = true :=
  ⟨rfl, rfl, rfl⟩

/-- C5 (amended): nodes handled by the generic branch of `expandQueryNode`
are reconstructed only if a descendant changed — in particular a tree
containing neither flex nodes nor object nodes is returned as the original
reference, and a `MergeObjectsQueryNode` is always returned unreconstructed
(its array-held children are not even visited) — but `ObjectQueryNode`s are
unconditionally rebuilt, changed or not. -/
theorem C5_structural_sharing :
    (∀ (expandOp : String → String → List FlexSearchTokenization → QueryNode)
       (toks : List FlexSearchTokenization) (t : QueryNode),
      containsFlex t = false → containsObj t = false →
      expandQueryNode expandOp toks t = (t, false)) ∧
    (∀ (expandOp : String → String → List FlexSearchTokenization → QueryNode)
       (toks : List FlexSearchTokenization) (ns : List QueryNode),
      expandQueryNode expandOp toks (.merge ns) = (.merge ns, false)) ∧
    (∀ (expandOp : String → String → List FlexSearchTokenization → QueryNode)
       (toks : List FlexSearchTokenization) (props : List (String × QueryNode)),
      (expandQueryNode expandOp toks (.obj props)).2 = true) := by
  refine ⟨?_, fun _ _ _ => rfl, fun _ _ _ => rfl⟩
  intro expandOp toks t
  induction t using QueryNode.strongInduction with
  | hlit v => intro _ _; rfl
  | hvar s => intro _ _; rfl
  | hflex e l => intro hf _; simp [containsFlex] at hf
  | hobj props _ => intro _ ho; simp [containsObj] at ho
  | hmerge ns _ => intro _ _; rfl
  | hcond c t e ihc iht ihe =>
    intro hf ho
    simp only [containsFlex, Bool.or_eq_false_iff] at hf
    simp only [containsObj, Bool.or_eq_false_iff] at ho
    simp [expandQueryNode, ihc hf.1.1 ho.1.1, iht hf.1.2 ho.1.2, ihe hf.2 ho.2]

/-- C5 (witness): the amended theorem at a merge node holding a literal —
returned as the original, unreconstructed. -/
theorem C5_witness :
    expandQueryNode expandOp0 [] (.merge [.literal .vnull]) =
      (.merge [.literal .vnull], false) :=
  C5_structural_sharing.1 expandOp0 [] (.merge [.literal .vnull]) rfl rfl

/-- C6: when `executeExt` reports an error, `resolveOperation` still
returns normally: the envelope carries the backend-reported `error` and
`data` as values, and the profile — built exactly under the
`profileConsumer || recordPlan || recordTimings` condition — still carries
the backend-reported plan, stats and timing data. -/
theorem C6_backend_error_envelope
    (env : ResolverEnv) (isMut : Bool) (options : ExecutionOptions)
    (qt : QueryNode) (evs : List ResolveEvent) (exe : QueryNode → ExtResult)
    (hguard : isMut = false ∨ options.mutationMode = .allowed)
    (htry : resolveTryBlock env options = (.ok qt, evs))
    (hstatic : (evaluateQueryStatically qt).1 = false)
    (hext : env.adapter.executeExt = some exe) :
    (resolveOperation env isMut options).1 =
      .ok { data := (exe qt).data, error := (exe qt).error,
            profile := mkProfile
              (env.profileConsumer || options.recordPlan || options.recordTimings)
              (exe qt).plan (exe qt).stats (exe qt).timings } := by
  have hg : (isMut && decide (options.mutationMode = MutationMode.disallowed)) = false := by
    rcases hguard with h | h <;> simp [h]
  simp [resolveOperation, hg, htry, hstatic, hext]

/-- C6 (witness): a concrete failing backend — the envelope carries the
error and the full profile. -/
theorem C6_witness :
    (resolveOperation envErr false { recordTimings := true }).1 =
      .ok { data := .vundef, error := some "boom",
            profile := some { plan := some "plan", stats := some "stats",
                              dbTimings := some 5 } } := by
  have h := C6_backend_error_envelope envErr false { recordTimings := true }
    (.varNode "v") [.distilled, .treeBuilt, .tokenizeCall []]
    (fun _ => { data := .vundef, error := some "boom", plan := some "plan",
                stats := some "stats", timings := some 5 })
    (Or.inl rfl) rfl rfl rfl
  simpa [mkProfile] using h

/-- Object construction: a statically evaluated property list agrees with
the backend's jsSet-accumulating interpreter, for any accumulator. -/
theorem backendEvalObj_of_static :
    ∀ (props : List (String × QueryNode)) (ps : List (String × Value)),
      (∀ k n, (k, n) ∈ props → ∀ v, staticEvalNode n = some v → backendEval n = some v) →
      staticEvalProps props = some ps →
      ∀ acc, backendEvalObj props acc =
        some (.vobj (ps.foldl (fun a p => Value.jsSet a p.1 p.2) acc)) := by
  intro props
  induction props with
  | nil =>
    intro ps _ hps acc
    simp only [staticEvalProps] at hps
    injection hps with h
    subst h
    rfl
  | cons q rest ih =>
    intro ps hIH hps acc
    obtain ⟨k, n⟩ := q
    simp only [staticEvalProps] at hps
    split at hps
    · rename_i v ps' hv hps'
      injection hps with h
      subst h
      have hb := hIH k n (List.Mem.head _) v hv
      simp only [backendEvalObj, hb, List.foldl_cons]
      exact ih ps' (fun k' n' h' => hIH k' n' (List.mem_cons_of_mem _ h')) hps' _
    · exact absurd hps (by simp)

/-- Merging: statically evaluated merge inputs agree with the backend's
spread-accumulating interpreter, for any accumulator. -/
theorem backendEvalMerge_of_static :
    ∀ (ns : List QueryNode) (objs : List (List (String × Value))),
      (∀ n ∈ ns, ∀ v, staticEvalNode n = some v → backendEval n = some v) →
      staticEvalObjs ns = some objs →
      ∀ acc, backendEvalMerge ns acc = some (.vobj (objs.foldl spreadProps acc)) := by
  intro ns
  induction ns with
  | nil =>
    intro objs _ hobjs acc
    simp only [staticEvalObjs] at hobjs
    injection hobjs with h
    subst h
    rfl
  | cons n rest ih =>
    intro objs hIH hobjs acc
    simp only [staticEvalObjs] at hobjs
    split at hobjs
    · rename_i ps hv
      split at hobjs
      · rename_i os hos
        injection hobjs with h
        subst h
        have hb := hIH n (List.Mem.head _) (.vobj ps) hv
        simp only [backendEvalMerge, hb, List.foldl_cons]
        exact ih os (fun n' h' => hIH n' (List.mem_cons_of_mem _ h')) hos _
      · exact absurd hobjs (by simp)
    · exact absurd hobjs (by simp)

/-- Wherever the static evaluator produces a value, the backend contract
semantics produces the same value. -/
theorem static_backend_agree :
    ∀ (t : QueryNode) (v : Value), staticEvalNode t = some v → backendEval t = some v := by
  intro t
  induction t using QueryNode.strongInduction with
  | hlit w => intro v h; exact h
  | hvar s => intro v h; simp [staticEvalNode] at h
  | hflex e l => intro v h; simp [staticEvalNode] at h
  | hcond c t e _ _ _ => intro v h; simp [staticEvalNode] at h
  | hobj props ih =>
    intro v h
    simp only [staticEvalNode] at h
    split at h
    · rename_i ps hps
      injection h with h
      subst h
      simp only [backendEval]
      exact backendEvalObj_of_static props ps ih hps []
    · exact absurd h (by simp)
  | hmerge ns ih =>
    intro v h
    simp only [staticEvalNode] at h
    split at h
    · rename_i objs hobjs
      injection h with h
      subst h
      simp only [backendEval]
      exact backendEvalMerge_of_static ns objs ih hobjs []
    · exact absurd h (by simp)

/-- C7: static evaluation is sound — whenever `evaluateQueryStatically`
reports the tree reducible with value `v`, any backend adapter whose
`execute` satisfies the backend contract yields the same `v` for the same
tree. -/
theorem C7_static_eval_soundness
    (t : QueryNode) (v : Value) (execute : QueryNode → Value)
    (hcontract : SatisfiesBackendContract execute)
    (heval : evaluateQueryStatically t = (true, v)) :
    execute t = v := by
  have hs : staticEvalNode t = some v := by
    unfold evaluateQueryStatically at heval
    split at heval
    · rename_i w hw
      injection heval with h1 h2
      subst h2
      exact hw
    · injection heval with h1 h2
      exact absurd h1 (by simp)
  exact hcontract t v (static_backend_agree t v hs)

/-- C7 (witness): a literal-only tree of objects and a merge, statically
reduced, executed by the reference contract-satisfying backend. -/
theorem C7_witness :
    backendExecute0 (.merge
      [.obj [("a", .literal (.vint 1)), ("b", .literal (.vint 2))],
       .obj [("b", .literal (.vint 3)), ("c", .literal (.vint 4))]]) =
      .vobj [("a", .vint 1), ("b", .vint 3), ("c", .vint 4)] :=
  C7_static_eval_soundness _ _ backendExecute0
    (fun t v h => by simp [backendExecute0, h]) rfl

theorem lookup_cons (k : String) (v : Value) (rest : List (String × Value)) (n : String) :
    Value.lookup ((k, v) :: rest) n = if k = n then some v else Value.lookup rest n := by
  by_cases h : k = n <;> simp [Value.lookup, List.find?, h]

theorem lookup_eq_none_of_not_mem (ps : List (String × Value)) (n : String)
    (h : n ∉ ps.map Prod.fst) : Value.lookup ps n = none := by
  induction ps with
  | nil => rfl
  | cons p rest ih =>
    obtain ⟨k, v⟩ := p
    simp only [List.map_cons, List.mem_cons, not_or] at h
    rw [lookup_cons, if_neg (fun hq => h.1 hq.symm)]
    exact ih h.2

theorem lookup_jsSet (acc : List (String × Value)) (k : String) (v : Value) (n : String) :
    Value.lookup (Value.jsSet acc k v) n = if k = n then some v else Value.lookup acc n := by
  induction acc with
  | nil => by_cases h : k = n <;> simp [Value.jsSet, lookup_cons, h]
  | cons p rest ih =>
    obtain ⟨k', v'⟩ := p
    by_cases h1 : k' = k
    · subst h1
      by_cases h2 : k' = n <;> simp [Value.jsSet, lookup_cons, h2]
    · by_cases h2 : k' = n
      · subst h2
        have : ¬ k = k' := fun hq => h1 hq.symm
        simp [Value.jsSet, h1, lookup_cons, this]
      · simp [Value.jsSet, h1, lookup_cons, h2, ih]

theorem mem_keys_jsDelete (acc : List (String × Value)) (k n : String)
    (h : n ∈ (Value.jsDelete acc k).map Prod.fst) : n ∈ acc.map Prod.fst := by
  induction acc with
  | nil => simpa [Value.jsDelete] using h
  | cons p rest ih =>
    obtain ⟨k', v'⟩ := p
    by_cases h1 : k' = k
    · simp only [Value.jsDelete, if_pos h1] at h
      simp [h]
    · simp only [Value.jsDelete, if_neg h1, List.map_cons, List.mem_cons] at h
      rcases h with h | h
      · simp [h]
      · simp [ih h]

theorem nodup_keys_jsDelete (acc : List (String × Value)) (k : String)
    (hnd : (acc.map Prod.fst).Nodup) : ((Value.jsDelete acc k).map Prod.fst).Nodup := by
  induction acc with
  | nil => simpa [Value.jsDelete] using hnd
  | cons p rest ih =>
    obtain ⟨k', v'⟩ := p
    simp only [List.map_cons, List.nodup_cons] at hnd
    by_cases h1 : k' = k
    · simpa [Value.jsDelete, if_pos h1] using hnd.2
    · simp only [Value.jsDelete, if_neg h1, List.map_cons, List.nodup_cons]
      exact ⟨fun hmem => hnd.1 (mem_keys_jsDelete rest k k' hmem), ih hnd.2⟩

theorem lookup_jsDelete (acc : List (String × Value)) (k n : String)
    (hnd : (acc.map Prod.fst).Nodup) :
    Value.lookup (Value.jsDelete acc k) n = if k = n then none else Value.lookup acc n := by
  induction acc with
  | nil => by_cases h : k = n <;> simp [Value.jsDelete, Value.lookup, h]
  | cons p rest ih =>
    obtain ⟨k', v'⟩ := p
    simp only [List.map_cons, List.nodup_cons] at hnd
    by_cases h1 : k' = k
    · subst h1
      by_cases h2 : k' = n
      · subst h2
        rw [Value.jsDelete, if_pos rfl, if_pos rfl]
        exact lookup_eq_none_of_not_mem rest k' hnd.1
      · simp [Value.jsDelete, lookup_cons, h2]
    · by_cases h2 : k' = n
      · subst h2
        have : ¬ k = k' := fun hq => h1 hq.symm
        simp [Value.jsDelete, h1, lookup_cons, this]
      · simp [Value.jsDelete, h1, lookup_cons, h2, ih hnd.2]

theorem mem_keys_jsSet (acc : List (String × Value)) (k : String) (v : Value) (n : String)
    (h : n ∈ (Value.jsSet acc k v).map Prod.fst) : n ∈ acc.map Prod.fst ∨ n = k := by
  induction acc with
  | nil => simpa [Value.jsSet] using h
  | cons p rest ih =>
    obtain ⟨k', v'⟩ := p
    by_cases h1 : k' = k
    · simp only [Value.jsSet, if_pos h1, List.map_cons, List.mem_cons] at h
      rcases h with h | h
      · exact Or.inl (by simp [h])
      · exact Or.inl (by simp [h])
    · simp only [Value.jsSet, if_neg h1, List.map_cons, List.mem_cons] at h
      rcases h with h | h
      · exact Or.inl (by simp [h])
      · rcases ih h with h' | h'
        · exact Or.inl (by simp [h'])
        · exact Or.inr h'

theorem nodup_keys_jsSet (acc : List (String × Value)) (k : String) (v : Value)
    (hnd : (acc.map Prod.fst).Nodup) : ((Value.jsSet acc k v).map Prod.fst).Nodup := by
  induction acc with
  | nil => simp [Value.jsSet]
  | cons p rest ih =>
    obtain ⟨k', v'⟩ := p
    simp only [List.map_cons, List.nodup_cons] at hnd
    by_cases h1 : k' = k
    · simp only [Value.jsSet, if_pos h1, List.map_cons, List.nodup_cons]
      exact ⟨hnd.1, hnd.2⟩
    · simp only [Value.jsSet, if_neg h1, List.map_cons, List.nodup_cons]
      refine ⟨fun hmem => ?_, ih hnd.2⟩
      rcases mem_keys_jsSet rest k v k' hmem with h' | h'
      · exact hnd.1 h'
      · exact h1 h'

theorem nodup_keys_spreadProps :
    ∀ (ps acc : List (String × Value)), (acc.map Prod.fst).Nodup →
      ((spreadProps acc ps).map Prod.fst).Nodup := by
  intro ps
  induction ps with
  | nil => intro acc h; exact h
  | cons p rest ih =>
    intro acc h
    obtain ⟨k, v⟩ := p
    cases v with
    | vremove => exact ih _ (nodup_keys_jsDelete acc k h)
    | vundef => exact ih _ (nodup_keys_jsSet acc k _ h)
    | vnull => exact ih _ (nodup_keys_jsSet acc k _ h)
    | vbool b => exact ih _ (nodup_keys_jsSet acc k _ h)
    | vint i => exact ih _ (nodup_keys_jsSet acc k _ h)
    | vstr s => exact ih _ (nodup_keys_jsSet acc k _ h)
    | vlist xs => exact ih _ (nodup_keys_jsSet acc k _ h)
    | vobj o => exact ih _ (nodup_keys_jsSet acc k _ h)

theorem lookup_spreadProps :
    ∀ (ps : List (String × Value)), ((ps.map Prod.fst).Nodup) →
      ∀ (acc : List (String × Value)), (acc.map Prod.fst).Nodup → ∀ n,
        Value.lookup (spreadProps acc ps) n =
          spreadResult (Value.lookup ps n) (Value.lookup acc n) := by
  intro ps
  induction ps with
  | nil => intro _ acc _ n; rfl
  | cons p rest ih =>
    intro hnd acc hacc n
    obtain ⟨k, v⟩ := p
    simp only [List.map_cons, List.nodup_cons] at hnd
    by_cases hkn : k = n
    · subst hkn
      have hrest : Value.lookup rest k = none := lookup_eq_none_of_not_mem rest k hnd.1
      cases v with
      | vremove =>
        rw [show spreadProps acc ((k, .vremove) :: rest) =
              spreadProps (Value.jsDelete acc k) rest from rfl,
            ih hnd.2 _ (nodup_keys_jsDelete acc k hacc) k, hrest, lookup_cons, if_pos rfl,
            lookup_jsDelete acc k k hacc, if_pos rfl]
        rfl
      | vnull =>
        rw [show spreadProps acc ((k, .vnull) :: rest) =
              spreadProps (Value.jsSet acc k .vnull) rest from rfl,
            ih hnd.2 _ (nodup_keys_jsSet acc k _ hacc) k, hrest, lookup_cons, if_pos rfl,
            lookup_jsSet acc k _ k, if_pos rfl]
        rfl
      | vundef =>
        rw [show spreadProps acc ((k, .vundef) :: rest) =
              spreadProps (Value.jsSet acc k .vundef) rest from rfl,
            ih hnd.2 _ (nodup_keys_jsSet acc k _ hacc) k, hrest, lookup_cons, if_pos rfl,
            lookup_jsSet acc k _ k, if_pos rfl]
        rfl
      | vbool b =>
        rw [show spreadProps acc ((k, .vbool b) :: rest) =
              spreadProps (Value.jsSet acc k (.vbool b)) rest from rfl,
            ih hnd.2 _ (nodup_keys_jsSet acc k _ hacc) k, hrest, lookup_cons, if_pos rfl,
            lookup_jsSet acc k _ k, if_pos rfl]
        rfl
      | vint i =>
        rw [show spreadProps acc ((k, .vint i) :: rest) =
              spreadProps (Value.jsSet acc k (.vint i)) rest from rfl,
            ih hnd.2 _ (nodup_keys_jsSet acc k _ hacc) k, hrest, lookup_cons, if_pos rfl,
            lookup_jsSet acc k _ k, if_pos rfl]
        rfl
      | vstr s =>
        rw [show spreadProps acc ((k, .vstr s) :: rest) =
              spreadProps (Value.jsSet acc k (.vstr s)) rest from rfl,
            ih hnd.2 _ (nodup_keys_jsSet acc k _ hacc) k, hrest, lookup_cons, if_pos rfl,
            lookup_jsSet acc k _ k, if_pos rfl]
        rfl
      | vlist xs =>
        rw [show spreadProps acc ((k, .vlist xs) :: rest) =
              spreadProps (Value.jsSet acc k (.vlist xs)) rest from rfl,
            ih hnd.2 _ (nodup_keys_jsSet acc k _ hacc) k, hrest, lookup_cons, if_pos rfl,
            lookup_jsSet acc k _ k, if_pos rfl]
        rfl
      | vobj o =>
        rw [show spreadProps acc ((k, .vobj o) :: rest) =
              spreadProps (Value.jsSet acc k (.vobj o)) rest from rfl,
            ih hnd.2 _ (nodup_keys_jsSet acc k _ hacc) k, hrest, lookup_cons, if_pos rfl,
            lookup_jsSet acc k _ k, if_pos rfl]
        rfl
    · have hlcons : Value.lookup ((k, v) :: rest) n = Value.lookup rest n := by
        rw [lookup_cons, if_neg hkn]
      cases v with
      | vremove =>
        rw [show spreadProps acc ((k, .vremove) :: rest) =
              spreadProps (Value.jsDelete acc k) rest from rfl,
            ih hnd.2 _ (nodup_keys_jsDelete acc k hacc) n, hlcons,
            lookup_jsDelete acc k n hacc, if_neg hkn]
      | vnull =>
        rw [show spreadProps acc ((k, .vnull) :: rest) =
              spreadProps (Value.jsSet acc k .vnull) rest from rfl,
            ih hnd.2 _ (nodup_keys_jsSet acc k _ hacc) n, hlcons,
            lookup_jsSet acc k _ n, if_neg hkn]
      | vundef =>
        rw [show spreadProps acc ((k, .vundef) :: rest) =
              spreadProps (Value.jsSet acc k .vundef) rest from rfl,
            ih hnd.2 _ (nodup_keys_jsSet acc k _ hacc) n, hlcons,
            lookup_jsSet acc k _ n, if_neg hkn]
      | vbool b =>
        rw [show spreadProps acc ((k, .vbool b) :: rest) =
              spreadProps (Value.jsSet acc k (.vbool b)) rest from rfl,
            ih hnd.2 _ (nodup_keys_jsSet acc k _ hacc) n, hlcons,
            lookup_jsSet acc k _ n, if_neg hkn]
      | vint i =>
        rw [show spreadProps acc ((k, .vint i) :: rest) =
              spreadProps (Value.jsSet acc k (.vint i)) rest from rfl,
            ih hnd.2 _ (nodup_keys_jsSet acc k _ hacc) n, hlcons,
            lookup_jsSet acc k _ n, if_neg hkn]
      | vstr s =>
        rw [show spreadProps acc ((k, .vstr s) :: rest) =
              spreadProps (Value.jsSet acc k (.vstr s)) rest from rfl,
            ih hnd.2 _ (nodup_keys_jsSet acc k _ hacc) n, hlcons,
            lookup_jsSet acc k _ n, if_neg hkn]
      | vlist xs =>
        rw [show spreadProps acc ((k, .vlist xs) :: rest) =
              spreadProps (Value.jsSet acc k (.vlist xs)) rest from rfl,
            ih hnd.2 _ (nodup_keys_jsSet acc k _ hacc) n, hlcons,
            lookup_jsSet acc k _ n, if_neg hkn]
      | vobj o =>
        rw [show spreadProps acc ((k, .vobj o) :: rest) =
              spreadProps (Value.jsSet acc k (.vobj o)) rest from rfl,
            ih hnd.2 _ (nodup_keys_jsSet acc k _ hacc) n, hlcons,
            lookup_jsSet acc k _ n, if_neg hkn]

/-- C8: merging objects is later-input-wins on the top-level properties —
for a property produced by both inputs, the later input's value `v`
determines the merged result (`v` itself, or removal of the property when
`v` is the explicit removal sentinel) — and evaluating the
`MergeObjectsQueryNode` over `{a:1,b:2}` and `{b:3,c:4}` yields
`{a:1,b:3,c:4}`. -/
theorem C8_merge_later_wins :
    (∀ (o1 o2 : List (String × Value)) (n : String) (v : Value),
      (o2.map Prod.fst).Nodup →
      Value.hasKey o1 n = true →
      Value.lookup o2 n = some v →
      Value.lookup (mergeAll [o1, o2]) n =
        (match v with | .vremove => none | _ => some v)) ∧
    backendEval (.merge
      [.obj [("a", .literal (.vint 1)), ("b", .literal (.vint 2))],
       .obj [("b", .literal (.vint 3)), ("c", .literal (.vint 4))]]) =
      some (.vobj [("a", .vint 1), ("b", .vint 3), ("c", .vint 4)]) := by
  refine ⟨?_, rfl⟩
  intro o1 o2 n v hnd2 _ h2
  have hacc : ((spreadProps [] o1).map Prod.fst).Nodup :=
    nodup_keys_spreadProps o1 [] (by simp)
  rw [show mergeAll [o1, o2] = spreadProps (spreadProps [] o1) o2 from rfl,
      lookup_spreadProps o2 hnd2 _ hacc n, h2]
  cases v <;> rfl

/-- C8 (witness): the later-wins theorem at the spec's example — the
overlapping property `b` takes the later input's value `3`. -/
theorem C8_witness :
    Value.lookup (mergeAll
      [[("a", .vint 1), ("b", .vint 2)], [("b", .vint 3), ("c", .vint 4)]]) "b" =
      some (.vint 3) := by
  have h := C8_merge_later_wins.1
    [("a", .vint 1), ("b", .vint 2)] [("b", .vint 3), ("c", .vint 4)]
    "b" (.vint 3) (by simp) rfl rfl
  simpa using h

theorem lookup_foldl_jsSet :
    ∀ (ps : List (String × Value)), (ps.map Prod.fst).Nodup →
      ∀ acc n, Value.lookup (ps.foldl (fun a p => Value.jsSet a p.1 p.2) acc) n =
        (match Value.lookup ps n with
         | some v => some v
         | none => Value.lookup acc n) := by
  intro ps
  induction ps with
  | nil => intro _ acc n; rfl
  | cons p rest ih =>
    intro hnd acc n
    obtain ⟨k, v⟩ := p
    simp only [List.map_cons, List.nodup_cons] at hnd
    rw [List.foldl_cons, ih hnd.2, lookup_cons]
    by_cases hkn : k = n
    · subst hkn
      rw [lookup_eq_none_of_not_mem rest k hnd.1, if_pos rfl, lookup_jsSet, if_pos rfl]
    · rw [if_neg hkn]
      cases h : Value.lookup rest n
      · rw [lookup_jsSet, if_neg hkn]
      · rfl

theorem lookup_fromPairs (ps : List (String × Value)) (hnd : (ps.map Prod.fst).Nodup)
    (n : String) : Value.lookup (Value.fromPairs ps) n = Value.lookup ps n := by
  rw [Value.fromPairs, lookup_foldl_jsSet ps hnd [] n]
  cases Value.lookup ps n <;> rfl

theorem exceptBind_ok {α β : Type} (a : α) (f : α → Except String β) :
    (Except.ok a >>= f : Except String β) = f a := rfl

theorem exceptBind_error {α β : Type} (e : String) (f : α → Except String β) :
    ((Except.error e : Except String α) >>= f) = Except.error e := rfl

theorem exceptPure {α : Type} (a : α) : (pure a : Except String α) = Except.ok a := rfl

theorem exceptMap_ok {α β : Type} (f : α → β) (a : α) :
    Except.map f (Except.ok a : Except String α) = Except.ok (f a) := rfl

theorem exceptMap_error {α β : Type} (f : α → β) (e : String) :
    Except.map f (Except.error e : Except String α) = (Except.error e : Except String β) := rfl

/-- `hasKey` is false exactly when `obj[k]` comes out `undefined` because
the key is absent. -/
theorem getVal_of_hasKey_false (props : List (String × Value)) (n : String)
    (h : Value.hasKey props n = false) : Value.getVal props n = .vundef := by
  have h2 : ∀ x ∈ props, ¬ x.1 = n := by
    intro x hx hxn
    have h3 : Value.hasKey props n = true := by
      unfold Value.hasKey
      exact List.any_eq_true.mpr ⟨x, hx, by simpa using hxn⟩
    rw [h3] at h
    exact Bool.noConfusion h
  unfold Value.getVal
  rw [List.find?_eq_none.mpr (fun x hx => by simpa using h2 x hx)]

/-- The single pair emitted by a successful `getProperties`. -/
theorem getPropertyPairs_shape (f : CreateInputField) (v : Value)
    (ps : List (String × Value)) (h : getPropertyPairs f v = .ok ps) :
    ∃ w, ps = [(f.nameOf, w)] ∧ coerceValue f (defaultSubst f v) = .ok w := by
  unfold getPropertyPairs at h
  cases hc : coerceValue f (defaultSubst f v) with
  | error e =>
    rw [hc] at h
    simp only [exceptBind_error, Except.map_error] at h
    exact Except.noConfusion h
  | ok w =>
    rw [hc] at h
    simp only [exceptBind_ok, Except.map_ok, exceptPure, Except.ok.injEq] at h
    exact ⟨w, h.symm, rfl⟩

/-- Every key of a successful `prepareFields` result is the name of one of
the input fields. -/
theorem prepareFields_keys_sub :
    ∀ (fields : List CreateInputField) (props out : List (String × Value)),
      prepareFields fields props = .ok out →
      ∀ q ∈ out, q.1 ∈ fields.map CreateInputField.nameOf := by
  intro fields
  induction fields with
  | nil =>
    intro props out h q hq
    simp only [prepareFields] at h
    injection h with h
    subst h
    simp at hq
  | cons f rest ih =>
    intro props out h q hq
    simp only [prepareFields] at h
    split at h
    · cases hps : getPropertyPairs f (Value.getVal props f.nameOf) with
      | error e =>
        rw [hps] at h
        simp only [exceptBind_error, Except.map_error] at h
        exact Except.noConfusion h
      | ok ps =>
        rw [hps] at h
        cases hrs : prepareFields rest props with
        | error e =>
          rw [hrs] at h
          simp only [exceptBind_ok, exceptBind_error, Except.map_error] at h
          exact Except.noConfusion h
        | ok rs =>
          rw [hrs] at h
          simp only [exceptBind_ok, Except.map_ok, exceptPure, Except.ok.injEq] at h
          subst h
          rcases List.mem_append.mp hq with hq | hq
          · obtain ⟨w, hw, _⟩ := getPropertyPairs_shape f _ ps hps
            subst hw
            rcases List.mem_singleton.mp hq with rfl
            simp
          · simp only [List.map_cons, List.mem_cons]
            exact Or.inr (ih props rs hrs q hq)
    · simp only [List.map_cons, List.mem_cons]
      exact Or.inr (ih props out h q hq)

/-- Distinct field names give a duplicate-free prepared pair list. -/
theorem prepareFields_keys_nodup :
    ∀ (fields : List CreateInputField) (props out : List (String × Value)),
      (fields.map CreateInputField.nameOf).Nodup →
      prepareFields fields props = .ok out →
      (out.map Prod.fst).Nodup := by
  intro fields
  induction fields with
  | nil =>
    intro props out _ h
    simp only [prepareFields] at h
    injection h with h
    subst h
    simp
  | cons f rest ih =>
    intro props out hnd h
    simp only [List.map_cons, List.nodup_cons] at hnd
    simp only [prepareFields] at h
    split at h
    · cases hps : getPropertyPairs f (Value.getVal props f.nameOf) with
      | error e =>
        rw [hps] at h
        simp only [exceptBind_error, Except.map_error] at h
        exact Except.noConfusion h
      | ok ps =>
        rw [hps] at h
        cases hrs : prepareFields rest props with
        | error e =>
          rw [hrs] at h
          simp only [exceptBind_ok, exceptBind_error, Except.map_error] at h
          exact Except.noConfusion h
        | ok rs =>
          rw [hrs] at h
          simp only [exceptBind_ok, Except.map_ok, exceptPure, Except.ok.injEq] at h
          subst h
          obtain ⟨w, hw, _⟩ := getPropertyPairs_shape f _ ps hps
          subst hw
          simp only [List.singleton_append, List.map_cons, List.nodup_cons]
          refine ⟨fun hmem => ?_, ih props rs hnd.2 hrs⟩
          rcases List.mem_map.mp hmem with ⟨q, hq, hq1⟩
          exact hnd.1 (hq1 ▸ prepareFields_keys_sub rest props rs hrs q hq)
    · exact ih props out hnd.2 h

/-- For an applicable field, the prepared object binds the field's name to
its coerced (default-substituted) value. -/
theorem prepareFields_lookup :
    ∀ (fields : List CreateInputField) (props out : List (String × Value))
      (f : CreateInputField),
      prepareFields fields props = .ok out →
      f ∈ fields →
      (fields.map CreateInputField.nameOf).Nodup →
      isApplicable f props = true →
      ∃ w, coerceValue f (defaultSubst f (Value.getVal props f.nameOf)) = .ok w ∧
        Value.lookup out f.nameOf = some w := by
  intro fields
  induction fields with
  | nil => intro props out f _ hf; simp at hf
  | cons g rest ih =>
    intro props out f h hf hnd happ
    simp only [List.map_cons, List.nodup_cons] at hnd
    simp only [prepareFields] at h
    rcases List.mem_cons.mp hf with rfl | hf
    · rw [if_pos happ] at h
      cases hps : getPropertyPairs f (Value.getVal props f.nameOf) with
      | error e =>
        rw [hps] at h
        simp only [exceptBind_error, Except.map_error] at h
        exact Except.noConfusion h
      | ok ps =>
        rw [hps] at h
        cases hrs : prepareFields rest props with
        | error e =>
          rw [hrs] at h
          simp only [exceptBind_ok, exceptBind_error, Except.map_error] at h
          exact Except.noConfusion h
        | ok rs =>
          rw [hrs] at h
          simp only [exceptBind_ok, Except.map_ok, exceptPure, Except.ok.injEq] at h
          subst h
          obtain ⟨w, hw, hcw⟩ := getPropertyPairs_shape f _ ps hps
          subst hw
          exact ⟨w, hcw, by rw [List.singleton_append, lookup_cons, if_pos rfl]⟩
    · have hne : g.nameOf ≠ f.nameOf := by
        intro hq
        exact hnd.1 (hq ▸ List.mem_map.mpr ⟨f, hf, rfl⟩)
      split at h
      · cases hps : getPropertyPairs g (Value.getVal props g.nameOf) with
        | error e =>
          rw [hps] at h
          simp only [exceptBind_error, Except.map_error] at h
          exact Except.noConfusion h
        | ok ps =>
          rw [hps] at h
          cases hrs : prepareFields rest props with
          | error e =>
            rw [hrs] at h
            simp only [exceptBind_ok, exceptBind_error, Except.map_error] at h
            exact Except.noConfusion h
          | ok rs =>
            rw [hrs] at h
            simp only [exceptBind_ok, Except.map_ok, exceptPure, Except.ok.injEq] at h
            subst h
            obtain ⟨w, hw, _⟩ := getPropertyPairs_shape g _ ps hps
            subst hw
            obtain ⟨w2, hcw2, hlk2⟩ := ih props rs f hrs hf hnd.2 happ
            exact ⟨w2, hcw2, by rw [List.singleton_append, lookup_cons, if_neg hne, hlk2]⟩
      · exact ih props out f h hf hnd.2 happ

/-- A non-applicable field's name is absent from the prepared object. -/
theorem prepareFields_lookup_none :
    ∀ (fields : List CreateInputField) (props out : List (String × Value))
      (f : CreateInputField),
      prepareFields fields props = .ok out →
      f ∈ fields →
      (fields.map CreateInputField.nameOf).Nodup →
      isApplicable f props = false →
      Value.lookup out f.nameOf = none := by
  intro fields
  induction fields with
  | nil => intro props out f _ hf; simp at hf
  | cons g rest ih =>
    intro props out f h hf hnd happ
    simp only [List.map_cons, List.nodup_cons] at hnd
    simp only [prepareFields] at h
    rcases List.mem_cons.mp hf with rfl | hf
    · rw [if_neg (by simp [happ])] at h
      refine lookup_eq_none_of_not_mem out f.nameOf (fun hmem => ?_)
      rcases List.mem_map.mp hmem with ⟨q, hq, hq1⟩
      exact hnd.1 (hq1 ▸ prepareFields_keys_sub rest props out h q hq)
    · have hne : g.nameOf ≠ f.nameOf := by
        intro hq
        exact hnd.1 (hq ▸ List.mem_map.mpr ⟨f, hf, rfl⟩)
      split at h
      · cases hps : getPropertyPairs g (Value.getVal props g.nameOf) with
        | error e =>
          rw [hps] at h
          simp only [exceptBind_error, Except.map_error] at h
          exact Except.noConfusion h
        | ok ps =>
          rw [hps] at h
          cases hrs : prepareFields rest props with
          | error e =>
            rw [hrs] at h
            simp only [exceptBind_ok, exceptBind_error, Except.map_error] at h
            exact Except.noConfusion h
          | ok rs =>
            rw [hrs] at h
            simp only [exceptBind_ok, Except.map_ok, exceptPure, Except.ok.injEq] at h
            subst h
            obtain ⟨w, hw, _⟩ := getPropertyPairs_shape g _ ps hps
            subst hw
            rw [List.singleton_append, lookup_cons, if_neg hne]
            exact ih props rs f hrs hf hnd.2 happ
      · exact ih props out f h hf hnd.2 happ

/-- List-valued fields coerce an explicit `null` to the empty list. -/
theorem coerce_list_vnull (f : CreateInputField) (hl : f.isListField = true) :
    coerceValue f .vnull = .ok (.vlist []) := by
  cases f with
  | basic fld => simp [CreateInputField.isListField] at hl
  | basicList fld => simp only [coerceValue]
  | objectField fld nested => simp [CreateInputField.isListField] at hl
  | objectList fld nested => simp only [coerceValue]

/-- A list-valued field's coercion never produces `null`. -/
theorem coerce_list_not_null (f : CreateInputField) (hl : f.isListField = true)
    (v w : Value) (h : coerceValue f v = .ok w) : w ≠ .vnull := by
  cases f with
  | basic fld => simp [CreateInputField.isListField] at hl
  | objectField fld nested => simp [CreateInputField.isListField] at hl
  | basicList fld =>
    cases v <;> simp only [coerceValue, Except.ok.injEq] at h <;> subst h <;>
      intro hq <;> exact Value.noConfusion hq
  | objectList fld nested =>
    cases v with
    | vnull =>
      simp only [coerceValue, Except.ok.injEq] at h
      subst h
      intro hq
      exact Value.noConfusion hq
    | vundef =>
      simp only [coerceValue, Except.ok.injEq] at h
      subst h
      intro hq
      exact Value.noConfusion hq
    | vlist xs =>
      simp only [coerceValue] at h
      cases hys : prepareEach nested xs with
      | error e =>
        rw [hys] at h
        simp only [exceptBind_error, Except.map_error] at h
        exact Except.noConfusion h
      | ok ys =>
        rw [hys] at h
        simp only [exceptBind_ok, Except.map_ok, exceptPure, Except.ok.injEq] at h
        subst h
        intro hq
        exact Value.noConfusion hq
    | vremove =>
      simp only [coerceValue] at h
      exact Except.noConfusion h
    | vbool b =>
      simp only [coerceValue] at h
      exact Except.noConfusion h
    | vint i =>
      simp only [coerceValue] at h
      exact Except.noConfusion h
    | vstr s =>
      simp only [coerceValue] at h
      exact Except.noConfusion h
    | vobj o =>
      simp only [coerceValue] at h
      exact Except.noConfusion h

/-- C9: for a list-valued create input field (scalar list or object list),
an explicit `null` input is coerced to `[]` by `prepareValue`, and the
prepared create value never binds the field's name to `null` — whatever
the input. -/
theorem C9_null_list_coerced
    (fields : List CreateInputField) (props out : List (String × Value))
    (f : CreateInputField)
    (hnd : (fields.map CreateInputField.nameOf).Nodup)
    (hf : f ∈ fields)
    (hl : f.isListField = true)
    (hprep : prepareValue fields props = .ok out) :
    (Value.getVal props f.nameOf = .vnull →
      Value.lookup out f.nameOf = some (.vlist [])) ∧
    Value.lookup out f.nameOf ≠ some .vnull := by
  unfold prepareValue at hprep
  cases hpf : prepareFields fields props with
  | error e =>
    rw [hpf] at hprep
    simp only [exceptBind_error, Except.map_error] at hprep
    exact Except.noConfusion hprep
  | ok out0 =>
    rw [hpf] at hprep
    simp only [exceptBind_ok, Except.map_ok, exceptPure, Except.ok.injEq] at hprep
    subst hprep
    have hnd0 := prepareFields_keys_nodup fields props out0 hnd hpf
    have hlkF := lookup_fromPairs out0 hnd0
    constructor
    · intro hv
      have hk : Value.hasKey props f.nameOf = true := by
        cases hkc : Value.hasKey props f.nameOf with
        | true => rfl
        | false =>
          have h4 := getVal_of_hasKey_false props f.nameOf hkc
          rw [hv] at h4
          exact Value.noConfusion h4
      have happ : isApplicable f props = true := by
        unfold isApplicable
        rw [hk]
        rfl
      obtain ⟨w, hcw, hlk⟩ := prepareFields_lookup fields props out0 f hpf hf hnd happ
      rw [hv] at hcw
      rw [show defaultSubst f .vnull = .vnull from rfl, coerce_list_vnull f hl] at hcw
      injection hcw with hw
      rw [hlkF, hlk, ← hw]
    · intro hcontra
      rw [hlkF] at hcontra
      by_cases happ : isApplicable f props = true
      · obtain ⟨w, hcw, hlk⟩ := prepareFields_lookup fields props out0 f hpf hf hnd happ
        rw [hlk] at hcontra
        injection hcontra with hw
        exact coerce_list_not_null f hl _ w hcw hw
      · have hnone := prepareFields_lookup_none fields props out0 f hpf hf hnd
          (by simpa using happ)
        rw [hnone] at hcontra
        exact Option.noConfusion hcontra

/-- C9 (witness): a scalar-list field explicitly set to `null` prepares to
the empty list. -/
theorem C9_witness :
    Value.lookup [("tags", Value.vlist [])] "tags" = some (.vlist []) ∧
    Value.lookup [("tags", Value.vlist [])] "tags" ≠ some .vnull := by
  have h := C9_null_list_coerced
    [.basicList ⟨1, "tags", false, .vundef⟩]
    [("tags", .vnull)] [("tags", .vlist [])]
    (.basicList ⟨1, "tags", false, .vundef⟩)
    (by simp)
    (List.Mem.head _)
    rfl
    (by simp [prepareValue, prepareFields, getPropertyPairs, coerceValue, isApplicable,
          defaultSubst, CreateInputField.nameOf, CreateInputField.fieldOf,
          CreateInputField.appliesToMissingFields, Value.hasKey, Value.getVal,
          Value.fromPairs, Value.jsSet, exceptBind_ok, exceptPure, List.find?])
  exact ⟨h.1 rfl, h.2⟩

/-- Dedup by object identity only drops elements, it never invents one. -/
theorem mem_of_mem_dedupFields :
    ∀ (l : List FieldModel) (seen : List Nat) (F : FieldModel),
      F ∈ dedupFields seen l → F ∈ l := by
  intro l
  induction l with
  | nil => intro seen F h; simpa [dedupFields] using h
  | cons g rest ih =>
    intro seen F h
    simp only [dedupFields] at h
    split at h
    · exact List.mem_cons_of_mem _ (ih _ F h)
    · rcases List.mem_cons.mp h with h | h
      · exact h ▸ List.Mem.head _
      · exact List.mem_cons_of_mem _ (ih _ F h)

/-- `collectAffectedFields` of every field class adds nothing for an
`undefined` value ("don't consider this field if it is just set to its
default value"). -/
theorem collectAffectedField_undef :
    ∀ f : CreateInputField, collectAffectedField f .vundef = .ok [] := by
  intro f
  cases f <;> simp [collectAffectedField]

/-- Everything collected by `CreateObjectInputType.collectAffectedFields`
is contributed by an input field whose value in the object is defined. -/
theorem collectAffectedObj_mem :
    ∀ (fields : List CreateInputField) (props : List (String × Value))
      (out : List FieldModel),
      collectAffectedObj fields props = .ok out →
      ∀ F ∈ out, ∃ f ∈ fields, Value.getVal props f.nameOf ≠ .vundef ∧
        ∃ a, collectAffectedField f (Value.getVal props f.nameOf) = .ok a ∧ F ∈ a := by
  intro fields
  induction fields with
  | nil =>
    intro props out h F hF
    simp only [collectAffectedObj] at h
    injection h with h
    subst h
    simp at hF
  | cons g rest ih =>
    intro props out h F hF
    simp only [collectAffectedObj] at h
    split at h
    · cases ha : collectAffectedField g (Value.getVal props g.nameOf) with
      | error e =>
        rw [ha] at h
        simp only [exceptBind_error, Except.map_error] at h
        exact Except.noConfusion h
      | ok a =>
        rw [ha] at h
        cases hb : collectAffectedObj rest props with
        | error e =>
          rw [hb] at h
          simp only [exceptBind_ok, exceptBind_error, Except.map_error] at h
          exact Except.noConfusion h
        | ok b =>
          rw [hb] at h
          simp only [exceptBind_ok, Except.map_ok, exceptPure, Except.ok.injEq] at h
          subst h
          rcases List.mem_append.mp hF with hF | hF
          · by_cases hv : Value.getVal props g.nameOf = .vundef
            · rw [hv, collectAffectedField_undef g] at ha
              injection ha with ha
              subst ha
              simp at hF
            · exact ⟨g, List.Mem.head _, hv, a, ha, hF⟩
          · obtain ⟨f, hfm, hrest⟩ := ih props b hb F hF
            exact ⟨f, List.mem_cons_of_mem _ hfm, hrest⟩
    · obtain ⟨f, hfm, hrest⟩ := ih props out h F hF
      exact ⟨f, List.mem_cons_of_mem _ hfm, hrest⟩

/-- C10: a model field appears in `getAffectedFields` only through an input
field whose value is defined in the input object: every collected field is
witnessed by an input field with a non-`undefined` value, and a field whose
value is absent — even one with a default value that `prepareValue` would
fill in — contributes nothing (`collectAffectedFields` on `undefined` adds
no field). -/
theorem C10_absent_fields_unaffected :
    (∀ (fields : List CreateInputField) (props : List (String × Value))
       (out : List FieldModel) (F : FieldModel),
      getAffectedFields fields props = .ok out →
      F ∈ out →
      ∃ f ∈ fields, Value.getVal props f.nameOf ≠ .vundef ∧
        ∃ a, collectAffectedField f (Value.getVal props f.nameOf) = .ok a ∧ F ∈ a) ∧
    (∀ f : CreateInputField, collectAffectedField f .vundef = .ok []) := by
  refine ⟨?_, collectAffectedField_undef⟩
  intro fields props out F h hF
  unfold getAffectedFields at h
  cases hc : collectAffectedObj fields props with
  | error e =>
    rw [hc, exceptMap_error] at h
    exact Except.noConfusion h
  | ok out0 =>
    rw [hc, exceptMap_ok] at h
    injection h with h
    subst h
    exact collectAffectedObj_mem fields props out0 hc F (mem_of_mem_dedupFields out0 [] F hF)

/-- C10 (witness): with field `a` absent (but defaulted) and field `b`
set, only `b`'s model field is affected, and it is witnessed by the
defined input field `b`. -/
theorem C10_witness :
    ∃ f ∈ ([.basic ⟨1, "a", true, .vint 7⟩, .basic ⟨2, "b", false, .vundef⟩] :
        List CreateInputField),
      Value.getVal [("b", .vint 5)] f.nameOf ≠ .vundef ∧
      ∃ a, collectAffectedField f (Value.getVal [("b", .vint 5)] f.nameOf) = .ok a ∧
        (⟨2, "b", false, .vundef⟩ : FieldModel) ∈ a :=
  C10_absent_fields_unaffected.1
    [.basic ⟨1, "a", true, .vint 7⟩, .basic ⟨2, "b", false, .vundef⟩]
    [("b", .vint 5)] [⟨2, "b", false, .vundef⟩] ⟨2, "b", false, .vundef⟩
    (by simp [getAffectedFields, collectAffectedObj, collectAffectedField, isApplicable,
          CreateInputField.nameOf, CreateInputField.fieldOf,
          CreateInputField.appliesToMissingFields, Value.hasKey, Value.getVal,
          dedupFields, exceptBind_ok, exceptPure, List.find?, exceptMap_ok])
    (List.Mem.head _)

end Cruddl
